import Mathlib

/-!
Verification development for the duckedyduck mutation-injection extension.

The embedding models the mutation rule catalog and selection orchestrator of
the injector module, the operator flip tables of the extension module, the
change-range diff extractor, and the text normalization step.  Programs are
modelled as a syntax-tree subset covering the node shapes the mutation rules
inspect; strings are lists of characters; the JavaScript number type is
modelled by Int where the code does integer reasoning.
-/

namespace Duck

/-- The closed enumeration of bug kinds (injector module). -/
inductive BugKind where
  | booleanNegation
  | offByOne
  | logicalAndOrSwap
  | comparisonDirectionFlip
  | equalityInequalityFlip
  | invertTernaryBranches
  | wrongArithmeticOperator
  | bitwiseLogicalSwap
  | indexOffByOne
  | generalBoundaryOffByOne
  | homoglyphSabotage
  | scopeGaslighting
  deriving DecidableEq, Repr, Fintype

/-- Binary operators of the modelled language subset. -/
inductive BinOp where
  | eqLoose | neqLoose | eqStrict | neqStrict
  | lt | le | gt | ge
  | add | sub | mul | div | mod
  | bitAnd | bitOr
  deriving DecidableEq, Repr, Fintype

/-- Logical operators. -/
inductive LogOp where
  | andOp | orOp
  deriving DecidableEq, Repr

mutual
/-- Expression nodes of the modelled syntax-tree subset. -/
inductive Expr where
  | boolLit (b : Bool)
  | numLit (n : Int)
  | strLit (s : List Char)
  | nullLit
  | ident (name : List Char)
  | unaryNot (arg : Expr)
  | binary (op : BinOp) (l r : Expr)
  | logical (op : LogOp) (l r : Expr)
  | cond (test cons alt : Expr)
  | assign (l r : Expr)
  | paren (e : Expr)
  | call (callee : Expr) (args : ExprList)
  | member (obj : Expr) (computed : Bool) (prop : Expr)
  deriving DecidableEq, Repr

/-- Argument lists (kept as a mutual inductive so recursion stays structural). -/
inductive ExprList where
  | nil
  | cons (head : Expr) (tail : ExprList)
  deriving DecidableEq, Repr
end

mutual
/-- Statement nodes of the modelled syntax-tree subset.  A variable
declarator is a pair of the declared name and the optional initializer. -/
inductive Stmt where
  | exprStmt (e : Expr)
  | varDecl (decls : List (List Char × Option Expr))
  | funcDecl (name : List Char) (params : List (List Char)) (body : StmtList)
  | forStmt (init : OptStmt) (test : Option Expr) (update : Option Expr) (body : Stmt)
  | whileStmt (test : Expr) (body : Stmt)
  | doWhileStmt (test : Expr) (body : Stmt)
  | block (body : StmtList)
  | ret (arg : Option Expr)
  deriving DecidableEq, Repr

/-- Optional statement (for-loop initializer position). -/
inductive OptStmt where
  | none
  | some (s : Stmt)
  deriving DecidableEq, Repr

/-- Statement lists (function bodies, blocks, the program itself). -/
inductive StmtList where
  | nil
  | cons (head : Stmt) (tail : StmtList)
  deriving DecidableEq, Repr
end

/-- A program (babel File body) is a statement list. -/
abbrev Tree := StmtList

/-! ## Generic first-match rewriting

The babel mutators traverse the tree in pre-order (the `enter` order), fire
a node-local rewrite at the first matching node, and `path.stop()` the
traversal.  `visit` tries the local matcher at one node, falling through to
the descent result when the matcher does not fire. -/

/-- Try the local matcher at one node; on a match replace the node and report
a mutation, otherwise fall through to the descent result. -/
def visit {α : Type} (f : α → Option α) (x : α) (k : α × Bool) : α × Bool :=
  match f x with
  | Option.some y => (y, true)
  | Option.none => k

mutual
/-- Pre-order first-match rewrite over expressions. -/
def rwE (f : Expr → Option Expr) : Expr → Expr × Bool
  | .boolLit b => visit f (.boolLit b) (.boolLit b, false)
  | .numLit n => visit f (.numLit n) (.numLit n, false)
  | .strLit s => visit f (.strLit s) (.strLit s, false)
  | .nullLit => visit f .nullLit (.nullLit, false)
  | .ident n => visit f (.ident n) (.ident n, false)
  | .unaryNot a =>
    visit f (.unaryNot a)
      (let r := rwE f a
       (.unaryNot r.1, r.2))
  | .binary op l r =>
    visit f (.binary op l r)
      (let rl := rwE f l
       if rl.2 then (.binary op rl.1 r, true)
       else
         let rr := rwE f r
         (.binary op l rr.1, rr.2))
  | .logical op l r =>
    visit f (.logical op l r)
      (let rl := rwE f l
       if rl.2 then (.logical op rl.1 r, true)
       else
         let rr := rwE f r
         (.logical op l rr.1, rr.2))
  | .cond t c a =>
    visit f (.cond t c a)
      (let rt := rwE f t
       if rt.2 then (.cond rt.1 c a, true)
       else
         let rc := rwE f c
         if rc.2 then (.cond t rc.1 a, true)
         else
           let ra := rwE f a
           (.cond t c ra.1, ra.2))
  | .assign l r =>
    visit f (.assign l r)
      (let rl := rwE f l
       if rl.2 then (.assign rl.1 r, true)
       else
         let rr := rwE f r
         (.assign l rr.1, rr.2))
  | .paren e0 =>
    visit f (.paren e0)
      (let r := rwE f e0
       (.paren r.1, r.2))
  | .call c args =>
    visit f (.call c args)
      (let rc := rwE f c
       if rc.2 then (.call rc.1 args, true)
       else
         let ra := rwEL f args
         (.call c ra.1, ra.2))
  | .member o comp p =>
    visit f (.member o comp p)
      (let ro := rwE f o
       if ro.2 then (.member ro.1 comp p, true)
       else
         let rp := rwE f p
         (.member o comp rp.1, rp.2))
  termination_by structural e => e

/-- Pre-order first-match rewrite over expression lists. -/
def rwEL (f : Expr → Option Expr) : ExprList → ExprList × Bool
  | .nil => (.nil, false)
  | .cons e es =>
    let re := rwE f e
    if re.2 then (.cons re.1 es, true)
    else
      let res := rwEL f es
      (.cons e res.1, res.2)
  termination_by structural l => l
end

/-- Rewrite inside an optional expression field. -/
def rwOptE (f : Expr → Option Expr) : Option Expr → Option Expr × Bool
  | Option.none => (Option.none, false)
  | Option.some e =>
    let r := rwE f e
    (Option.some r.1, r.2)

/-- Rewrite inside the initializers of a declarator list (declared names are
not expressions). -/
def rwDecls (f : Expr → Option Expr) :
    List (List Char × Option Expr) → List (List Char × Option Expr) × Bool
  | [] => ([], false)
  | (n, i) :: ds =>
    let ri := rwOptE f i
    if ri.2 then ((n, ri.1) :: ds, true)
    else
      let rds := rwDecls f ds
      ((n, i) :: rds.1, rds.2)

mutual
/-- Pre-order first-match rewrite over statements: the statement-local
matcher `fs` is tried at the statement node itself, then the children are
visited in babel visitor-key order. -/
def rwS (fs : Stmt → Option Stmt) (f : Expr → Option Expr) : Stmt → Stmt × Bool
  | .exprStmt e =>
    visit fs (.exprStmt e)
      (let r := rwE f e
       (.exprStmt r.1, r.2))
  | .varDecl ds =>
    visit fs (.varDecl ds)
      (let r := rwDecls f ds
       (.varDecl r.1, r.2))
  | .funcDecl n ps b =>
    visit fs (.funcDecl n ps b)
      (let r := rwSL fs f b
       (.funcDecl n ps r.1, r.2))
  | .forStmt i t u b =>
    visit fs (.forStmt i t u b)
      (let ri := rwOS fs f i
       if ri.2 then (.forStmt ri.1 t u b, true)
       else
         let rt := rwOptE f t
         if rt.2 then (.forStmt i rt.1 u b, true)
         else
           let ru := rwOptE f u
           if ru.2 then (.forStmt i t ru.1 b, true)
           else
             let rb := rwS fs f b
             (.forStmt i t u rb.1, rb.2))
  | .whileStmt t b =>
    visit fs (.whileStmt t b)
      (let rt := rwE f t
       if rt.2 then (.whileStmt rt.1 b, true)
       else
         let rb := rwS fs f b
         (.whileStmt t rb.1, rb.2))
  | .doWhileStmt t b =>
    visit fs (.doWhileStmt t b)
      (let rt := rwE f t
       if rt.2 then (.doWhileStmt rt.1 b, true)
       else
         let rb := rwS fs f b
         (.doWhileStmt t rb.1, rb.2))
  | .block b =>
    visit fs (.block b)
      (let r := rwSL fs f b
       (.block r.1, r.2))
  | .ret a =>
    visit fs (.ret a)
      (let r := rwOptE f a
       (.ret r.1, r.2))
  termination_by structural s => s

/-- Rewrite inside an optional statement field. -/
def rwOS (fs : Stmt → Option Stmt) (f : Expr → Option Expr) : OptStmt → OptStmt × Bool
  | .none => (.none, false)
  | .some s =>
    let r := rwS fs f s
    (.some r.1, r.2)
  termination_by structural o => o

/-- Pre-order first-match rewrite over statement lists. -/
def rwSL (fs : Stmt → Option Stmt) (f : Expr → Option Expr) : StmtList → StmtList × Bool
  | .nil => (.nil, false)
  | .cons s ss =>
    let r := rwS fs f s
    if r.2 then (.cons r.1 ss, true)
    else
      let rs := rwSL fs f ss
      (.cons s rs.1, rs.2)
  termination_by structural l => l
end

/-! ## Node-existence traversals

`anyE p e` holds iff some node of `e` (in the same pre-order) satisfies `p`;
these are the target predicates the mutation rules fire on. -/

mutual
/-- Some expression node satisfies `p`. -/
def anyE (p : Expr → Bool) : Expr → Bool
  | .boolLit b => p (.boolLit b)
  | .numLit n => p (.numLit n)
  | .strLit s => p (.strLit s)
  | .nullLit => p .nullLit
  | .ident n => p (.ident n)
  | .unaryNot a => p (.unaryNot a) || anyE p a
  | .binary op l r => p (.binary op l r) || anyE p l || anyE p r
  | .logical op l r => p (.logical op l r) || anyE p l || anyE p r
  | .cond t c a => p (.cond t c a) || anyE p t || anyE p c || anyE p a
  | .assign l r => p (.assign l r) || anyE p l || anyE p r
  | .paren e0 => p (.paren e0) || anyE p e0
  | .call c args => p (.call c args) || anyE p c || anyEL p args
  | .member o comp pr => p (.member o comp pr) || anyE p o || anyE p pr
  termination_by structural e => e

/-- Some expression node in the list satisfies `p`. -/
def anyEL (p : Expr → Bool) : ExprList → Bool
  | .nil => false
  | .cons e es => anyE p e || anyEL p es
  termination_by structural l => l
end

/-- Some node of the optional expression satisfies `p`. -/
def anyOptE (p : Expr → Bool) : Option Expr → Bool
  | Option.none => false
  | Option.some e => anyE p e

/-- Some initializer node of the declarator list satisfies `p`. -/
def anyDecls (p : Expr → Bool) : List (List Char × Option Expr) → Bool
  | [] => false
  | (_, i) :: ds => anyOptE p i || anyDecls p ds

mutual
/-- Some node of the statement satisfies the statement predicate `ps` or the
expression predicate `p`. -/
def anyS (ps : Stmt → Bool) (p : Expr → Bool) : Stmt → Bool
  | .exprStmt e => ps (.exprStmt e) || anyE p e
  | .varDecl ds => ps (.varDecl ds) || anyDecls p ds
  | .funcDecl n prm b => ps (.funcDecl n prm b) || anySL ps p b
  | .forStmt i t u b =>
    ps (.forStmt i t u b) || anyOS ps p i || anyOptE p t || anyOptE p u || anyS ps p b
  | .whileStmt t b => ps (.whileStmt t b) || anyE p t || anyS ps p b
  | .doWhileStmt t b => ps (.doWhileStmt t b) || anyE p t || anyS ps p b
  | .block b => ps (.block b) || anySL ps p b
  | .ret a => ps (.ret a) || anyOptE p a
  termination_by structural s => s

/-- Some node of the optional statement satisfies the predicates. -/
def anyOS (ps : Stmt → Bool) (p : Expr → Bool) : OptStmt → Bool
  | .none => false
  | .some s => anyS ps p s
  termination_by structural o => o

/-- Some node of the statement list satisfies the predicates. -/
def anySL (ps : Stmt → Bool) (p : Expr → Bool) : StmtList → Bool
  | .nil => false
  | .cons s ss => anyS ps p s || anySL ps p ss
  termination_by structural l => l
end

/-! ## Generic facts: a rewrite that reports no mutation is the identity, and
a rewrite reports a mutation exactly when some node matches. -/

theorem visit_false {α : Type} {f : α → Option α} {x : α} {k : α × Bool} :
    (visit f x k).2 = false → f x = Option.none ∧ visit f x k = k := by
  intro h
  unfold visit at *
  cases hf : f x with
  | some y => simp [hf] at h
  | none => simp [hf]

theorem visit_snd {α : Type} (f : α → Option α) (x : α) (k : α × Bool) :
    (visit f x k).2 = ((f x).isSome || k.2) := by
  unfold visit
  cases hf : f x with
  | some y => simp
  | none => simp

theorem rwOptE_false_id (f : Expr → Option Expr) (o : Option Expr)
    (he : ∀ e, (rwE f e).2 = false → (rwE f e).1 = e) :
    (rwOptE f o).2 = false → (rwOptE f o).1 = o := by
  intro h
  cases o with
  | none => rfl
  | some e =>
    simp only [rwOptE] at h ⊢
    rw [he e h]

theorem rwDecls_false_id (f : Expr → Option Expr) (ds : List (List Char × Option Expr))
    (he : ∀ e, (rwE f e).2 = false → (rwE f e).1 = e) :
    (rwDecls f ds).2 = false → (rwDecls f ds).1 = ds := by
  intro h
  induction ds with
  | nil => rfl
  | cons d ds ih =>
    obtain ⟨n, i⟩ := d
    simp only [rwDecls] at h ⊢
    by_cases hi : (rwOptE f i).2
    · simp [hi] at h
    · simp only [hi, Bool.false_eq_true, if_false] at h ⊢
      rw [ih h]

mutual
theorem rwE_false_id (f : Expr → Option Expr) (e : Expr) :
    (rwE f e).2 = false → (rwE f e).1 = e := by
  intro h
  cases e with
  | boolLit b => rw [rwE] at h ⊢; rw [(visit_false h).2]
  | numLit n => rw [rwE] at h ⊢; rw [(visit_false h).2]
  | strLit s => rw [rwE] at h ⊢; rw [(visit_false h).2]
  | nullLit => rw [rwE] at h ⊢; rw [(visit_false h).2]
  | ident n => rw [rwE] at h ⊢; rw [(visit_false h).2]
  | unaryNot a =>
    rw [rwE] at h ⊢
    have hk := (visit_false h).2
    rw [hk] at h ⊢
    simp only at h ⊢
    rw [rwE_false_id f a h]
  | binary op l r =>
    rw [rwE] at h ⊢
    have hk := (visit_false h).2
    rw [hk] at h ⊢
    simp only at h ⊢
    by_cases hl : (rwE f l).2
    · simp [hl] at h
    · simp only [hl, Bool.false_eq_true, if_false] at h ⊢
      rw [rwE_false_id f r h]
  | logical op l r =>
    rw [rwE] at h ⊢
    have hk := (visit_false h).2
    rw [hk] at h ⊢
    simp only at h ⊢
    by_cases hl : (rwE f l).2
    · simp [hl] at h
    · simp only [hl, Bool.false_eq_true, if_false] at h ⊢
      rw [rwE_false_id f r h]
  | cond t c a =>
    rw [rwE] at h ⊢
    have hk := (visit_false h).2
    rw [hk] at h ⊢
    simp only at h ⊢
    by_cases ht : (rwE f t).2
    · simp [ht] at h
    · simp only [ht, Bool.false_eq_true, if_false] at h ⊢
      by_cases hc : (rwE f c).2
      · simp [hc] at h
      · simp only [hc, Bool.false_eq_true, if_false] at h ⊢
        rw [rwE_false_id f a h]
  | assign l r =>
    rw [rwE] at h ⊢
    have hk := (visit_false h).2
    rw [hk] at h ⊢
    simp only at h ⊢
    by_cases hl : (rwE f l).2
    · simp [hl] at h
    · simp only [hl, Bool.false_eq_true, if_false] at h ⊢
      rw [rwE_false_id f r h]
  | paren e0 =>
    rw [rwE] at h ⊢
    have hk := (visit_false h).2
    rw [hk] at h ⊢
    simp only at h ⊢
    rw [rwE_false_id f e0 h]
  | call c args =>
    rw [rwE] at h ⊢
    have hk := (visit_false h).2
    rw [hk] at h ⊢
    simp only at h ⊢
    by_cases hc : (rwE f c).2
    · simp [hc] at h
    · simp only [hc, Bool.false_eq_true, if_false] at h ⊢
      rw [rwEL_false_id f args h]
  | member o comp p =>
    rw [rwE] at h ⊢
    have hk := (visit_false h).2
    rw [hk] at h ⊢
    simp only at h ⊢
    by_cases ho : (rwE f o).2
    · simp [ho] at h
    · simp only [ho, Bool.false_eq_true, if_false] at h ⊢
      rw [rwE_false_id f p h]

theorem rwEL_false_id (f : Expr → Option Expr) (l : ExprList) :
    (rwEL f l).2 = false → (rwEL f l).1 = l := by
  intro h
  cases l with
  | nil => rfl
  | cons e es =>
    simp only [rwEL] at h ⊢
    by_cases he : (rwE f e).2
    · simp [he] at h
    · simp only [he, Bool.false_eq_true, if_false] at h ⊢
      rw [rwEL_false_id f es h]
end

mutual
theorem rwS_false_id (fs : Stmt → Option Stmt) (f : Expr → Option Expr) (s : Stmt) :
    (rwS fs f s).2 = false → (rwS fs f s).1 = s := by
  intro h
  cases s with
  | exprStmt e =>
    rw [rwS] at h ⊢
    have hk := (visit_false h).2
    rw [hk] at h ⊢
    simp only at h ⊢
    rw [rwE_false_id f e h]
  | varDecl ds =>
    rw [rwS] at h ⊢
    have hk := (visit_false h).2
    rw [hk] at h ⊢
    simp only at h ⊢
    rw [rwDecls_false_id f ds (rwE_false_id f) h]
  | funcDecl n ps b =>
    rw [rwS] at h ⊢
    have hk := (visit_false h).2
    rw [hk] at h ⊢
    simp only at h ⊢
    rw [rwSL_false_id fs f b h]
  | forStmt i t u b =>
    rw [rwS] at h ⊢
    have hk := (visit_false h).2
    rw [hk] at h ⊢
    simp only at h ⊢
    by_cases hi : (rwOS fs f i).2
    · simp [hi] at h
    · simp only [hi, Bool.false_eq_true, if_false] at h ⊢
      by_cases ht : (rwOptE f t).2
      · simp [ht] at h
      · simp only [ht, Bool.false_eq_true, if_false] at h ⊢
        by_cases hu : (rwOptE f u).2
        · simp [hu] at h
        · simp only [hu, Bool.false_eq_true, if_false] at h ⊢
          rw [rwS_false_id fs f b h]
  | whileStmt t b =>
    rw [rwS] at h ⊢
    have hk := (visit_false h).2
    rw [hk] at h ⊢
    simp only at h ⊢
    by_cases ht : (rwE f t).2
    · simp [ht] at h
    · simp only [ht, Bool.false_eq_true, if_false] at h ⊢
      rw [rwS_false_id fs f b h]
  | doWhileStmt t b =>
    rw [rwS] at h ⊢
    have hk := (visit_false h).2
    rw [hk] at h ⊢
    simp only at h ⊢
    by_cases ht : (rwE f t).2
    · simp [ht] at h
    · simp only [ht, Bool.false_eq_true, if_false] at h ⊢
      rw [rwS_false_id fs f b h]
  | block b =>
    rw [rwS] at h ⊢
    have hk := (visit_false h).2
    rw [hk] at h ⊢
    simp only at h ⊢
    rw [rwSL_false_id fs f b h]
  | ret a =>
    rw [rwS] at h ⊢
    have hk := (visit_false h).2
    rw [hk] at h ⊢
    simp only at h ⊢
    rw [rwOptE_false_id f a (rwE_false_id f) h]

theorem rwOS_false_id (fs : Stmt → Option Stmt) (f : Expr → Option Expr) (o : OptStmt) :
    (rwOS fs f o).2 = false → (rwOS fs f o).1 = o := by
  intro h
  cases o with
  | none => rfl
  | some s =>
    simp only [rwOS] at h ⊢
    rw [rwS_false_id fs f s h]

theorem rwSL_false_id (fs : Stmt → Option Stmt) (f : Expr → Option Expr) (l : StmtList) :
    (rwSL fs f l).2 = false → (rwSL fs f l).1 = l := by
  intro h
  cases l with
  | nil => rfl
  | cons s ss =>
    simp only [rwSL] at h ⊢
    by_cases hs : (rwS fs f s).2
    · simp [hs] at h
    · simp only [hs, Bool.false_eq_true, if_false] at h ⊢
      rw [rwSL_false_id fs f ss h]
end

/-! ## A rewrite reports a mutation exactly when some node matches. -/

theorem rwOptE_snd (f : Expr → Option Expr) (o : Option Expr)
    (he : ∀ e, (rwE f e).2 = anyE (fun x => (f x).isSome) e) :
    (rwOptE f o).2 = anyOptE (fun x => (f x).isSome) o := by
  cases o with
  | none => rfl
  | some e => simpa [rwOptE, anyOptE] using he e

theorem rwDecls_snd (f : Expr → Option Expr) (ds : List (List Char × Option Expr))
    (he : ∀ e, (rwE f e).2 = anyE (fun x => (f x).isSome) e) :
    (rwDecls f ds).2 = anyDecls (fun x => (f x).isSome) ds := by
  induction ds with
  | nil => rfl
  | cons d ds ih =>
    obtain ⟨n, i⟩ := d
    simp only [rwDecls, anyDecls]
    rw [← rwOptE_snd f i he]
    cases hi : (rwOptE f i).2 <;> simp [hi, ih]

mutual
theorem rwE_snd (f : Expr → Option Expr) (e : Expr) :
    (rwE f e).2 = anyE (fun x => (f x).isSome) e := by
  cases e with
  | boolLit b => rw [rwE, anyE, visit_snd]; simp
  | numLit n => rw [rwE, anyE, visit_snd]; simp
  | strLit s => rw [rwE, anyE, visit_snd]; simp
  | nullLit => rw [rwE, anyE, visit_snd]; simp
  | ident n => rw [rwE, anyE, visit_snd]; simp
  | unaryNot a =>
    rw [rwE, anyE, visit_snd]
    simp only
    rw [rwE_snd f a]
  | binary op l r =>
    rw [rwE, anyE, visit_snd]
    simp only
    rw [rwE_snd f l, rwE_snd f r]
    cases anyE (fun x => (f x).isSome) l <;> simp
  | logical op l r =>
    rw [rwE, anyE, visit_snd]
    simp only
    rw [rwE_snd f l, rwE_snd f r]
    cases anyE (fun x => (f x).isSome) l <;> simp
  | cond t c a =>
    rw [rwE, anyE, visit_snd]
    simp only
    rw [rwE_snd f t, rwE_snd f c, rwE_snd f a]
    cases anyE (fun x => (f x).isSome) t <;>
      cases anyE (fun x => (f x).isSome) c <;> simp
  | assign l r =>
    rw [rwE, anyE, visit_snd]
    simp only
    rw [rwE_snd f l, rwE_snd f r]
    cases anyE (fun x => (f x).isSome) l <;> simp
  | paren e0 =>
    rw [rwE, anyE, visit_snd]
    simp only
    rw [rwE_snd f e0]
  | call c args =>
    rw [rwE, anyE, visit_snd]
    simp only
    rw [rwE_snd f c, rwEL_snd f args]
    cases anyE (fun x => (f x).isSome) c <;> simp
  | member o comp p =>
    rw [rwE, anyE, visit_snd]
    simp only
    rw [rwE_snd f o, rwE_snd f p]
    cases anyE (fun x => (f x).isSome) o <;> simp

theorem rwEL_snd (f : Expr → Option Expr) (l : ExprList) :
    (rwEL f l).2 = anyEL (fun x => (f x).isSome) l := by
  cases l with
  | nil => rfl
  | cons e es =>
    rw [rwEL, anyEL]
    simp only
    rw [rwE_snd f e, rwEL_snd f es]
    cases anyE (fun x => (f x).isSome) e <;> simp
end

mutual
theorem rwS_snd (fs : Stmt → Option Stmt) (f : Expr → Option Expr) (s : Stmt) :
    (rwS fs f s).2 = anyS (fun x => (fs x).isSome) (fun x => (f x).isSome) s := by
  cases s with
  | exprStmt e =>
    rw [rwS, anyS, visit_snd]
    simp only
    rw [rwE_snd f e]
  | varDecl ds =>
    rw [rwS, anyS, visit_snd]
    simp only
    rw [rwDecls_snd f ds (rwE_snd f)]
  | funcDecl n ps b =>
    rw [rwS, anyS, visit_snd]
    simp only
    rw [rwSL_snd fs f b]
  | forStmt i t u b =>
    rw [rwS, anyS, visit_snd]
    simp only
    rw [rwOS_snd fs f i, rwOptE_snd f t (rwE_snd f), rwOptE_snd f u (rwE_snd f),
      rwS_snd fs f b]
    cases anyOS (fun x => (fs x).isSome) (fun x => (f x).isSome) i <;>
      cases anyOptE (fun x => (f x).isSome) t <;>
        cases anyOptE (fun x => (f x).isSome) u <;> simp
  | whileStmt t b =>
    rw [rwS, anyS, visit_snd]
    simp only
    rw [rwE_snd f t, rwS_snd fs f b]
    cases anyE (fun x => (f x).isSome) t <;> simp
  | doWhileStmt t b =>
    rw [rwS, anyS, visit_snd]
    simp only
    rw [rwE_snd f t, rwS_snd fs f b]
    cases anyE (fun x => (f x).isSome) t <;> simp
  | block b =>
    rw [rwS, anyS, visit_snd]
    simp only
    rw [rwSL_snd fs f b]
  | ret a =>
    rw [rwS, anyS, visit_snd]
    simp only
    rw [rwOptE_snd f a (rwE_snd f)]

theorem rwOS_snd (fs : Stmt → Option Stmt) (f : Expr → Option Expr) (o : OptStmt) :
    (rwOS fs f o).2 = anyOS (fun x => (fs x).isSome) (fun x => (f x).isSome) o := by
  cases o with
  | none => rfl
  | some s =>
    rw [rwOS, anyOS]
    simp only
    rw [rwS_snd fs f s]

theorem rwSL_snd (fs : Stmt → Option Stmt) (f : Expr → Option Expr) (l : StmtList) :
    (rwSL fs f l).2 = anySL (fun x => (fs x).isSome) (fun x => (f x).isSome) l := by
  cases l with
  | nil => rfl
  | cons s ss =>
    rw [rwSL, anySL]
    simp only
    rw [rwS_snd fs f s, rwSL_snd fs f ss]
    cases anyS (fun x => (fs x).isSome) (fun x => (f x).isSome) s <;> simp
end

namespace injector

/-! ## The injector module (the 12-rule catalog and `injectBugs`). -/

/-- `n <= 0 ? n + 1 : n + 1` from the injector helpers. -/
def addOneToIndexLiteral (n : Int) : Int := if n ≤ 0 then n + 1 else n + 1

/-- Expressions that get wrapped in parentheses before negation. -/
def shouldParenthesizeForNegation : Expr → Bool
  | .binary _ _ _ => true
  | .logical _ _ _ => true
  | .cond _ _ _ => true
  | .assign _ _ => true
  | _ => false

/-- Wrap an expression in a prefix logical negation. -/
def negateExpression (e : Expr) : Expr :=
  .unaryNot (if shouldParenthesizeForNegation e then .paren e else e)

/-- The confusable-substitute table (ASCII letter to Cyrillic look-alike). -/
def HOMOGLYPHS (c : Char) : Option Char :=
  if c = 'a' then Option.some 'а'
  else if c = 'c' then Option.some 'с'
  else if c = 'e' then Option.some 'е'
  else if c = 'o' then Option.some 'о'
  else if c = 'p' then Option.some 'р'
  else if c = 'x' then Option.some 'х'
  else if c = 'y' then Option.some 'у'
  else Option.none

/-- Swap the first exploitable character of a name, scanning left to right. -/
def hgName : List Char → Option (List Char)
  | [] => Option.none
  | c :: rest =>
    match HOMOGLYPHS c with
    | Option.some h2 => Option.some (h2 :: rest)
    | Option.none => (hgName rest).map (fun r => c :: r)

/-- Swap the name of the first declarator whose name has an exploitable
character. -/
def hgDecls : List (List Char × Option Expr) → Option (List (List Char × Option Expr))
  | [] => Option.none
  | (n, i) :: ds =>
    match hgName n with
    | Option.some n2 => Option.some ((n2, i) :: ds)
    | Option.none => (hgDecls ds).map (fun r => (n, i) :: r)

/-- Statement-local matcher for homoglyph sabotage: declaration-site
identifiers only (variable declarators and function declarations). -/
def fsHomoglyph : Stmt → Option Stmt
  | .varDecl ds =>
    match hgDecls ds with
    | Option.some ds2 => Option.some (.varDecl ds2)
    | Option.none => Option.none
  | .funcDecl n ps b =>
    match hgName n with
    | Option.some n2 => Option.some (.funcDecl n2 ps b)
    | Option.none => Option.none
  | _ => Option.none

/-- An expression matcher that never fires. -/
def noExprMatch : Expr → Option Expr := fun _ => Option.none

/-- A statement matcher that never fires. -/
def noStmtMatch : Stmt → Option Stmt := fun _ => Option.none

/-- Rule 1: homoglyph sabotage. -/
def applyHomoglyphSabotageBug : Tree → Tree × Bool := rwSL fsHomoglyph noExprMatch

/-- Names declared at the top level of a statement (variable declarators and
function declarations); these are the own bindings a scope collects. -/
def topLevelNamesS : Stmt → List (List Char)
  | .varDecl ds => ds.map Prod.fst
  | .funcDecl n _ _ => [n]
  | _ => []

/-- Names declared at the top level of a statement list. -/
def topLevelNamesSL : StmtList → List (List Char)
  | .nil => []
  | .cons s ss => topLevelNamesS s ++ topLevelNamesSL ss

/-- Names declared by an optional for-loop initializer. -/
def optTopNames : OptStmt → List (List Char)
  | .none => []
  | .some s => topLevelNamesS s

mutual
/-- Referenced identifiers of an expression, in traversal order.  Assignment
targets and non-computed member properties are not references. -/
def refsE : Expr → List (List Char)
  | .boolLit _ => []
  | .numLit _ => []
  | .strLit _ => []
  | .nullLit => []
  | .ident n => [n]
  | .unaryNot a => refsE a
  | .binary _ l r => refsE l ++ refsE r
  | .logical _ l r => refsE l ++ refsE r
  | .cond t c a => refsE t ++ refsE c ++ refsE a
  | .assign l r =>
    (match l with
     | .ident _ => []
     | _ => refsE l) ++ refsE r
  | .paren e0 => refsE e0
  | .call c args => refsE c ++ refsEL args
  | .member o comp p =>
    refsE o ++
      (if comp then refsE p
       else
         match p with
         | .ident _ => []
         | _ => refsE p)
  termination_by structural e => e

/-- Referenced identifiers of an argument list. -/
def refsEL : ExprList → List (List Char)
  | .nil => []
  | .cons e es => refsE e ++ refsEL es
  termination_by structural l => l
end

/-- Referenced identifiers of an optional expression. -/
def refsOptE : Option Expr → List (List Char)
  | Option.none => []
  | Option.some e => refsE e

/-- Referenced identifiers in declarator initializers. -/
def refsDecls : List (List Char × Option Expr) → List (List Char)
  | [] => []
  | (_, i) :: ds => refsOptE i ++ refsDecls ds

mutual
/-- Referenced identifiers of a statement, in traversal order. -/
def refsS : Stmt → List (List Char)
  | .exprStmt e => refsE e
  | .varDecl ds => refsDecls ds
  | .funcDecl _ _ b => refsSL b
  | .forStmt i t u b => refsOS i ++ refsOptE t ++ refsOptE u ++ refsS b
  | .whileStmt t b => refsE t ++ refsS b
  | .doWhileStmt t b => refsE t ++ refsS b
  | .block b => refsSL b
  | .ret a => refsOptE a
  termination_by structural s => s

/-- Referenced identifiers of an optional statement. -/
def refsOS : OptStmt → List (List Char)
  | .none => []
  | .some s => refsS s
  termination_by structural o => o

/-- Referenced identifiers of a statement list. -/
def refsSL : StmtList → List (List Char)
  | .nil => []
  | .cons s ss => refsS s ++ refsSL ss
  termination_by structural l => l
end

/-- The ambient names babel's `Scope.hasBinding` reports as bound in every
scope even without a program declaration: the built-in globals
(`Scope.globals`, the builtin set of the `globals` package) together with
the context variables `arguments`, `undefined`, `Infinity` and `NaN`. -/
def ambientGlobals : List (List Char) :=
  [String.toList "arguments", String.toList "undefined",
   String.toList "Infinity", String.toList "NaN",
   String.toList "globalThis", String.toList "Array",
   String.toList "ArrayBuffer", String.toList "Atomics",
   String.toList "BigInt", String.toList "BigInt64Array",
   String.toList "BigUint64Array", String.toList "Boolean",
   String.toList "DataView", String.toList "Date",
   String.toList "decodeURI", String.toList "decodeURIComponent",
   String.toList "encodeURI", String.toList "encodeURIComponent",
   String.toList "Error", String.toList "escape", String.toList "eval",
   String.toList "EvalError", String.toList "Float32Array",
   String.toList "Float64Array", String.toList "Function",
   String.toList "Int8Array", String.toList "Int16Array",
   String.toList "Int32Array", String.toList "Intl",
   String.toList "isFinite", String.toList "isNaN",
   String.toList "JSON", String.toList "Map", String.toList "Math",
   String.toList "Number", String.toList "Object",
   String.toList "parseFloat", String.toList "parseInt",
   String.toList "Promise", String.toList "Proxy",
   String.toList "RangeError", String.toList "ReferenceError",
   String.toList "Reflect", String.toList "RegExp", String.toList "Set",
   String.toList "SharedArrayBuffer", String.toList "String",
   String.toList "Symbol", String.toList "SyntaxError",
   String.toList "TypeError", String.toList "Uint8Array",
   String.toList "Uint8ClampedArray", String.toList "Uint16Array",
   String.toList "Uint32Array", String.toList "unescape",
   String.toList "URIError", String.toList "WeakMap",
   String.toList "WeakRef", String.toList "WeakSet",
   String.toList "console"]

/-- The victim lookup of scope gaslighting: the first referenced name that
`path.scope.hasBinding` reports bound — declared in an enclosing scope or
an ambient global — but that `hasOwnBinding` does not find in the function
itself. -/
def sgVictim (env own : List (List Char)) (refs : List (List Char)) :
    Option (List Char) :=
  refs.find? (fun n => decide ((n ∈ env ∨ n ∈ ambientGlobals) ∧ n ∉ own))

mutual
/-- Rule 2, scope gaslighting, on one statement: at the first function whose
body references an outer binding not rebound locally, prepend a shadowing
`let victim = null` to the function body. -/
def sgS (env : List (List Char)) : Stmt → Stmt × Bool
  | .funcDecl name ps b =>
    match sgVictim env (ps ++ topLevelNamesSL b) (refsSL b) with
    | Option.some victim =>
      (.funcDecl name ps
        (.cons (.varDecl [(victim, Option.some Expr.nullLit)]) b), true)
    | Option.none =>
      let r := sgSL (env ++ (ps ++ topLevelNamesSL b)) b
      (.funcDecl name ps r.1, r.2)
  | .forStmt i t u b =>
    let ri := sgOS env i
    if ri.2 then (.forStmt ri.1 t u b, true)
    else
      let rb := sgS (env ++ optTopNames i) b
      (.forStmt i t u rb.1, rb.2)
  | .whileStmt t b =>
    let rb := sgS env b
    (.whileStmt t rb.1, rb.2)
  | .doWhileStmt t b =>
    let rb := sgS env b
    (.doWhileStmt t rb.1, rb.2)
  | .block b =>
    let r := sgSL (env ++ topLevelNamesSL b) b
    (.block r.1, r.2)
  | .exprStmt e => (.exprStmt e, false)
  | .varDecl ds => (.varDecl ds, false)
  | .ret a => (.ret a, false)
  termination_by structural s => s

/-- Scope gaslighting on an optional statement. -/
def sgOS (env : List (List Char)) : OptStmt → OptStmt × Bool
  | .none => (.none, false)
  | .some s =>
    let r := sgS env s
    (.some r.1, r.2)
  termination_by structural o => o

/-- Scope gaslighting on a statement list. -/
def sgSL (env : List (List Char)) : StmtList → StmtList × Bool
  | .nil => (.nil, false)
  | .cons s ss =>
    let r := sgS env s
    if r.2 then (.cons r.1 ss, true)
    else
      let rs := sgSL env ss
      (.cons s rs.1, rs.2)
  termination_by structural l => l
end

/-- Rule 2: scope gaslighting, starting from the program scope. -/
def applyScopeGaslightingBug (t : Tree) : Tree × Bool := sgSL (topLevelNamesSL t) t

/-- The boolean-negation targets: boolean literals, comparison and equality
binaries, and logical expressions, unless the parent is already a `!`. -/
def bnTarget (parentBang : Bool) (e : Expr) : Bool :=
  !parentBang &&
    (match e with
     | .boolLit _ => true
     | .binary op _ _ =>
       (match op with
        | .eqLoose | .neqLoose | .eqStrict | .neqStrict
        | .lt | .le | .gt | .ge => true
        | _ => false)
     | .logical _ _ _ => true
     | _ => false)

/-- Node-local matcher for boolean negation given the parent context. -/
def bnLocal (parentBang : Bool) : Expr → Option Expr := fun e =>
  if bnTarget parentBang e then Option.some (negateExpression e) else Option.none

mutual
/-- Boolean negation over an expression; `parentBang` records whether the
direct parent is a `!` unary expression. -/
def bnE (parentBang : Bool) : Expr → Expr × Bool
  | .boolLit b => visit (bnLocal parentBang) (.boolLit b) (.boolLit b, false)
  | .numLit n => visit (bnLocal parentBang) (.numLit n) (.numLit n, false)
  | .strLit s => visit (bnLocal parentBang) (.strLit s) (.strLit s, false)
  | .nullLit => visit (bnLocal parentBang) .nullLit (.nullLit, false)
  | .ident n => visit (bnLocal parentBang) (.ident n) (.ident n, false)
  | .unaryNot a =>
    visit (bnLocal parentBang) (.unaryNot a)
      (let r := bnE true a
       (.unaryNot r.1, r.2))
  | .binary op l r =>
    visit (bnLocal parentBang) (.binary op l r)
      (let rl := bnE false l
       if rl.2 then (.binary op rl.1 r, true)
       else
         let rr := bnE false r
         (.binary op l rr.1, rr.2))
  | .logical op l r =>
    visit (bnLocal parentBang) (.logical op l r)
      (let rl := bnE false l
       if rl.2 then (.logical op rl.1 r, true)
       else
         let rr := bnE false r
         (.logical op l rr.1, rr.2))
  | .cond t c a =>
    visit (bnLocal parentBang) (.cond t c a)
      (let rt := bnE false t
       if rt.2 then (.cond rt.1 c a, true)
       else
         let rc := bnE false c
         if rc.2 then (.cond t rc.1 a, true)
         else
           let ra := bnE false a
           (.cond t c ra.1, ra.2))
  | .assign l r =>
    visit (bnLocal parentBang) (.assign l r)
      (let rl := bnE false l
       if rl.2 then (.assign rl.1 r, true)
       else
         let rr := bnE false r
         (.assign l rr.1, rr.2))
  | .paren e0 =>
    visit (bnLocal parentBang) (.paren e0)
      (let r := bnE false e0
       (.paren r.1, r.2))
  | .call c args =>
    visit (bnLocal parentBang) (.call c args)
      (let rc := bnE false c
       if rc.2 then (.call rc.1 args, true)
       else
         let ra := bnEL args
         (.call c ra.1, ra.2))
  | .member o comp p =>
    visit (bnLocal parentBang) (.member o comp p)
      (let ro := bnE false o
       if ro.2 then (.member ro.1 comp p, true)
       else
         let rp := bnE false p
         (.member o comp rp.1, rp.2))
  termination_by structural e => e

/-- Boolean negation over an argument list (parents are the call node). -/
def bnEL : ExprList → ExprList × Bool
  | .nil => (.nil, false)
  | .cons e es =>
    let re := bnE false e
    if re.2 then (.cons re.1 es, true)
    else
      let res := bnEL es
      (.cons e res.1, res.2)
  termination_by structural l => l
end

/-- Boolean negation inside an optional expression. -/
def bnOptE : Option Expr → Option Expr × Bool
  | Option.none => (Option.none, false)
  | Option.some e =>
    let r := bnE false e
    (Option.some r.1, r.2)

/-- Boolean negation inside declarator initializers. -/
def bnDecls : List (List Char × Option Expr) → List (List Char × Option Expr) × Bool
  | [] => ([], false)
  | (n, i) :: ds =>
    let ri := bnOptE i
    if ri.2 then ((n, ri.1) :: ds, true)
    else
      let rds := bnDecls ds
      ((n, i) :: rds.1, rds.2)

mutual
/-- Boolean negation over a statement (statements themselves never match). -/
def bnS : Stmt → Stmt × Bool
  | .exprStmt e =>
    let r := bnE false e
    (.exprStmt r.1, r.2)
  | .varDecl ds =>
    let r := bnDecls ds
    (.varDecl r.1, r.2)
  | .funcDecl n ps b =>
    let r := bnSL b
    (.funcDecl n ps r.1, r.2)
  | .forStmt i t u b =>
    let ri := bnOS i
    if ri.2 then (.forStmt ri.1 t u b, true)
    else
      let rt := bnOptE t
      if rt.2 then (.forStmt i rt.1 u b, true)
      else
        let ru := bnOptE u
        if ru.2 then (.forStmt i t ru.1 b, true)
        else
          let rb := bnS b
          (.forStmt i t u rb.1, rb.2)
  | .whileStmt t b =>
    let rt := bnE false t
    if rt.2 then (.whileStmt rt.1 b, true)
    else
      let rb := bnS b
      (.whileStmt t rb.1, rb.2)
  | .doWhileStmt t b =>
    let rt := bnE false t
    if rt.2 then (.doWhileStmt rt.1 b, true)
    else
      let rb := bnS b
      (.doWhileStmt t rb.1, rb.2)
  | .block b =>
    let r := bnSL b
    (.block r.1, r.2)
  | .ret a =>
    let r := bnOptE a
    (.ret r.1, r.2)
  termination_by structural s => s

/-- Boolean negation over an optional statement. -/
def bnOS : OptStmt → OptStmt × Bool
  | .none => (.none, false)
  | .some s =>
    let r := bnS s
    (.some r.1, r.2)
  termination_by structural o => o

/-- Boolean negation over a statement list. -/
def bnSL : StmtList → StmtList × Bool
  | .nil => (.nil, false)
  | .cons s ss =>
    let r := bnS s
    if r.2 then (.cons r.1 ss, true)
    else
      let rs := bnSL ss
      (.cons s rs.1, rs.2)
  termination_by structural l => l
end

/-- Rule 3: boolean negation. -/
def applyBooleanNegationBug : Tree → Tree × Bool := bnSL

/-- The boundary-flip map `{ '<': '<=', '<=': '<', '>': '>=', '>=': '>' }`. -/
def obFlip : BinOp → Option BinOp
  | .lt => Option.some .le
  | .le => Option.some .lt
  | .gt => Option.some .ge
  | .ge => Option.some .gt
  | _ => Option.none

/-- Flip a loop test that is a binary comparison with a boundary operator. -/
def flipBinTest : Expr → Option Expr
  | .binary op l r => (obFlip op).map (fun op2 => Expr.binary op2 l r)
  | _ => Option.none

/-- Statement-local matcher for off-by-one: only loop test positions. -/
def fsOffByOne : Stmt → Option Stmt
  | .forStmt i (Option.some t) u b =>
    (flipBinTest t).map (fun t2 => Stmt.forStmt i (Option.some t2) u b)
  | .whileStmt t b => (flipBinTest t).map (fun t2 => Stmt.whileStmt t2 b)
  | .doWhileStmt t b => (flipBinTest t).map (fun t2 => Stmt.doWhileStmt t2 b)
  | _ => Option.none

/-- Rule 4: off-by-one on loop tests. -/
def applyOffByOneBug : Tree → Tree × Bool := rwSL fsOffByOne noExprMatch

/-- Node-local matcher: swap the logical operators. -/
def fLogicalAndOrSwap : Expr → Option Expr
  | .logical .andOp l r => Option.some (.logical .orOp l r)
  | .logical .orOp l r => Option.some (.logical .andOp l r)
  | _ => Option.none

/-- Rule 5: logical and/or swap. -/
def applyLogicalAndOrSwapBug : Tree → Tree × Bool := rwSL noStmtMatch fLogicalAndOrSwap

/-- The direction-flip map `{ '>': '<', '<': '>', '>=': '<=', '<=': '>=' }`. -/
def cdFlip : BinOp → Option BinOp
  | .gt => Option.some .lt
  | .lt => Option.some .gt
  | .ge => Option.some .le
  | .le => Option.some .ge
  | _ => Option.none

/-- Node-local matcher: flip the comparison direction. -/
def fComparisonDirectionFlip : Expr → Option Expr
  | .binary op l r => (cdFlip op).map (fun op2 => Expr.binary op2 l r)
  | _ => Option.none

/-- Rule 6: comparison direction flip. -/
def applyComparisonDirectionFlipBug : Tree → Tree × Bool :=
  rwSL noStmtMatch fComparisonDirectionFlip

/-- The equality-flip map `{ '==': '!==', '!=': '===', '===': '!==', '!==': '===' }`. -/
def eqFlip : BinOp → Option BinOp
  | .eqLoose => Option.some .neqStrict
  | .neqLoose => Option.some .eqStrict
  | .eqStrict => Option.some .neqStrict
  | .neqStrict => Option.some .eqStrict
  | _ => Option.none

/-- Node-local matcher: flip equality and inequality. -/
def fEqualityInequalityFlip : Expr → Option Expr
  | .binary op l r => (eqFlip op).map (fun op2 => Expr.binary op2 l r)
  | _ => Option.none

/-- Rule 7: equality and inequality flip. -/
def applyEqualityInequalityFlipBug : Tree → Tree × Bool :=
  rwSL noStmtMatch fEqualityInequalityFlip

/-- Node-local matcher: swap the branches of a conditional expression. -/
def fInvertTernary : Expr → Option Expr
  | .cond t c a => Option.some (.cond t a c)
  | _ => Option.none

/-- Rule 8: invert ternary branches. -/
def applyInvertTernaryBranchesBug : Tree → Tree × Bool := rwSL noStmtMatch fInvertTernary

/-- The arithmetic map `{ '+': '-', '-': '+', '*': '/', '/': '*', '%': '/' }`. -/
def arFlip : BinOp → Option BinOp
  | .add => Option.some .sub
  | .sub => Option.some .add
  | .mul => Option.some .div
  | .div => Option.some .mul
  | .mod => Option.some .div
  | _ => Option.none

/-- Node-local matcher: wrong arithmetic operator. -/
def fWrongArithmetic : Expr → Option Expr
  | .binary op l r => (arFlip op).map (fun op2 => Expr.binary op2 l r)
  | _ => Option.none

/-- Rule 9: wrong arithmetic operator. -/
def applyWrongArithmeticOperatorBug : Tree → Tree × Bool := rwSL noStmtMatch fWrongArithmetic

/-- Node-local matcher: rewrite logical to bitwise nodes and back, keeping
the and/or pairing. -/
def fBitwiseLogicalSwap : Expr → Option Expr
  | .logical .andOp l r => Option.some (.binary .bitAnd l r)
  | .logical .orOp l r => Option.some (.binary .bitOr l r)
  | .binary .bitAnd l r => Option.some (.logical .andOp l r)
  | .binary .bitOr l r => Option.some (.logical .orOp l r)
  | _ => Option.none

/-- Rule 10: bitwise and logical swap. -/
def applyBitwiseLogicalSwapBug : Tree → Tree × Bool := rwSL noStmtMatch fBitwiseLogicalSwap

/-- Node-local matcher of the injector variant of index off-by-one: a
computed member access whose index is a numeric literal. -/
def fIndexOffByOne : Expr → Option Expr
  | .member o true (.numLit n) =>
    Option.some (.member o true (.numLit (addOneToIndexLiteral n)))
  | _ => Option.none

/-- Rule 11: index off-by-one (injector variant). -/
def applyIndexOffByOneBug : Tree → Tree × Bool := rwSL noStmtMatch fIndexOffByOne

/-- Node-local matcher: flip boundary inclusion of any ordering comparison. -/
def fGeneralBoundary : Expr → Option Expr
  | .binary op l r => (obFlip op).map (fun op2 => Expr.binary op2 l r)
  | _ => Option.none

/-- Rule 12: general boundary off-by-one. -/
def applyGeneralBoundaryOffByOneBug : Tree → Tree × Bool := rwSL noStmtMatch fGeneralBoundary

/-- A catalog entry: a bug kind together with its detect-and-apply rule. -/
structure Mutator where
  kind : BugKind
  apply : Tree → Tree × Bool

/-- The weighted menu of destruction: the two nasty kinds appear five times
each, the standard kinds once. -/
def mutators : List Mutator := [
  ⟨.homoglyphSabotage, applyHomoglyphSabotageBug⟩,
  ⟨.homoglyphSabotage, applyHomoglyphSabotageBug⟩,
  ⟨.homoglyphSabotage, applyHomoglyphSabotageBug⟩,
  ⟨.homoglyphSabotage, applyHomoglyphSabotageBug⟩,
  ⟨.homoglyphSabotage, applyHomoglyphSabotageBug⟩,
  ⟨.scopeGaslighting, applyScopeGaslightingBug⟩,
  ⟨.scopeGaslighting, applyScopeGaslightingBug⟩,
  ⟨.scopeGaslighting, applyScopeGaslightingBug⟩,
  ⟨.scopeGaslighting, applyScopeGaslightingBug⟩,
  ⟨.scopeGaslighting, applyScopeGaslightingBug⟩,
  ⟨.booleanNegation, applyBooleanNegationBug⟩,
  ⟨.offByOne, applyOffByOneBug⟩,
  ⟨.logicalAndOrSwap, applyLogicalAndOrSwapBug⟩,
  ⟨.comparisonDirectionFlip, applyComparisonDirectionFlipBug⟩,
  ⟨.equalityInequalityFlip, applyEqualityInequalityFlipBug⟩,
  ⟨.invertTernaryBranches, applyInvertTernaryBranchesBug⟩,
  ⟨.wrongArithmeticOperator, applyWrongArithmeticOperatorBug⟩,
  ⟨.bitwiseLogicalSwap, applyBitwiseLogicalSwapBug⟩,
  ⟨.indexOffByOne, applyIndexOffByOneBug⟩,
  ⟨.generalBoundaryOffByOne, applyGeneralBoundaryOffByOneBug⟩]

/-- One pass of the inner for-loop of `injectBugs`: skip kinds already used,
apply the first mutator that reports a mutation; the tree is threaded through
failed attempts since the source mutates a shared tree in place. -/
def scanPool (applied : List BugKind) : List Mutator → Tree → Tree × Option BugKind
  | [], t => (t, Option.none)
  | m :: ms, t =>
    if m.kind ∈ applied then scanPool applied ms t
    else
      let r := m.apply t
      if r.2 then (r.1, Option.some m.kind)
      else scanPool applied ms r.1

/-- The while-loop of `injectBugs`, with explicit fuel; `sh` models the
in-place `shuffleInPlace` call of each round (an arbitrary reordering
indexed by the round number).  The `used` set of the source always equals
the set of kinds in `applied`, so membership in `applied` is checked. -/
def injectLoop (sh : Nat → List Mutator → List Mutator) (maxBugs : Int) :
    Nat → List BugKind → Nat → List Mutator → Tree → List BugKind × Tree
  | 0, applied, _, _, t => (applied, t)
  | fuel + 1, applied, round, avail, t =>
    if (applied.length : Int) < maxBugs then
      let avail2 := sh round avail
      match scanPool applied avail2 t with
      | (t2, Option.some k) =>
        injectLoop sh maxBugs fuel (applied ++ [k]) (round + 1) avail2 t2
      | (t2, Option.none) => (applied, t2)
    else (applied, t)

/-- `injectBugs` of the injector module: run the selection loop, and return
the original program when nothing was applied.  The fuel `maxBugs.toNat + 1`
is enough rounds for the loop to exit on its own (each round but the last
applies a bug). -/
def injectBugs (sh : Nat → List Mutator → List Mutator) (t : Tree) (maxBugs : Int) :
    Tree × List BugKind :=
  let r := injectLoop sh maxBugs (maxBugs.toNat + 1) [] 0 mutators t
  if r.1 = [] then (t, []) else (r.2, r.1)

end injector

namespace injector

/-! ## Target predicates for the two context-dependent rules. -/

mutual
/-- Some expression node is a boolean-negation target in context. -/
def bnAnyE (parentBang : Bool) : Expr → Bool
  | .boolLit b => bnTarget parentBang (.boolLit b)
  | .numLit n => bnTarget parentBang (.numLit n)
  | .strLit s => bnTarget parentBang (.strLit s)
  | .nullLit => bnTarget parentBang .nullLit
  | .ident n => bnTarget parentBang (.ident n)
  | .unaryNot a => bnTarget parentBang (.unaryNot a) || bnAnyE true a
  | .binary op l r =>
    bnTarget parentBang (.binary op l r) || bnAnyE false l || bnAnyE false r
  | .logical op l r =>
    bnTarget parentBang (.logical op l r) || bnAnyE false l || bnAnyE false r
  | .cond t c a =>
    bnTarget parentBang (.cond t c a) || bnAnyE false t || bnAnyE false c || bnAnyE false a
  | .assign l r =>
    bnTarget parentBang (.assign l r) || bnAnyE false l || bnAnyE false r
  | .paren e0 => bnTarget parentBang (.paren e0) || bnAnyE false e0
  | .call c args => bnTarget parentBang (.call c args) || bnAnyE false c || bnAnyEL args
  | .member o comp p =>
    bnTarget parentBang (.member o comp p) || bnAnyE false o || bnAnyE false p
  termination_by structural e => e

/-- Some argument-list node is a boolean-negation target. -/
def bnAnyEL : ExprList → Bool
  | .nil => false
  | .cons e es => bnAnyE false e || bnAnyEL es
  termination_by structural l => l
end

/-- Some node of an optional expression is a boolean-negation target. -/
def bnAnyOptE : Option Expr → Bool
  | Option.none => false
  | Option.some e => bnAnyE false e

/-- Some initializer node is a boolean-negation target. -/
def bnAnyDecls : List (List Char × Option Expr) → Bool
  | [] => false
  | (_, i) :: ds => bnAnyOptE i || bnAnyDecls ds

mutual
/-- Some node of a statement is a boolean-negation target. -/
def bnAnyS : Stmt → Bool
  | .exprStmt e => bnAnyE false e
  | .varDecl ds => bnAnyDecls ds
  | .funcDecl _ _ b => bnAnySL b
  | .forStmt i t u b => bnAnyOS i || bnAnyOptE t || bnAnyOptE u || bnAnyS b
  | .whileStmt t b => bnAnyE false t || bnAnyS b
  | .doWhileStmt t b => bnAnyE false t || bnAnyS b
  | .block b => bnAnySL b
  | .ret a => bnAnyOptE a
  termination_by structural s => s

/-- Some node of an optional statement is a boolean-negation target. -/
def bnAnyOS : OptStmt → Bool
  | .none => false
  | .some s => bnAnyS s
  termination_by structural o => o

/-- Some node of a statement list is a boolean-negation target. -/
def bnAnySL : StmtList → Bool
  | .nil => false
  | .cons s ss => bnAnyS s || bnAnySL ss
  termination_by structural l => l
end

mutual
/-- Some function node below the statement is a scope-gaslighting target
given the enclosing bindings `env`. -/
def sgAnyS (env : List (List Char)) : Stmt → Bool
  | .funcDecl _ ps b =>
    (sgVictim env (ps ++ topLevelNamesSL b) (refsSL b)).isSome
      || sgAnySL (env ++ (ps ++ topLevelNamesSL b)) b
  | .forStmt i _ _ b => sgAnyOS env i || sgAnyS (env ++ optTopNames i) b
  | .whileStmt _ b => sgAnyS env b
  | .doWhileStmt _ b => sgAnyS env b
  | .block b => sgAnySL (env ++ topLevelNamesSL b) b
  | .exprStmt _ => false
  | .varDecl _ => false
  | .ret _ => false
  termination_by structural s => s

/-- Scope-gaslighting target below an optional statement. -/
def sgAnyOS (env : List (List Char)) : OptStmt → Bool
  | .none => false
  | .some s => sgAnyS env s
  termination_by structural o => o

/-- Scope-gaslighting target below a statement list. -/
def sgAnySL (env : List (List Char)) : StmtList → Bool
  | .nil => false
  | .cons s ss => sgAnyS env s || sgAnySL env ss
  termination_by structural l => l
end

theorem bnLocal_isSome (parentBang : Bool) (e : Expr) :
    (bnLocal parentBang e).isSome = bnTarget parentBang e := by
  unfold bnLocal
  by_cases h : bnTarget parentBang e <;> simp [h]

theorem bnOptE_false_id (o : Option Expr)
    (he : ∀ e, (bnE false e).2 = false → (bnE false e).1 = e) :
    (bnOptE o).2 = false → (bnOptE o).1 = o := by
  intro h
  cases o with
  | none => rfl
  | some e =>
    simp only [bnOptE] at h ⊢
    rw [he e h]

theorem bnDecls_false_id (ds : List (List Char × Option Expr))
    (he : ∀ e, (bnE false e).2 = false → (bnE false e).1 = e) :
    (bnDecls ds).2 = false → (bnDecls ds).1 = ds := by
  intro h
  induction ds with
  | nil => rfl
  | cons d ds ih =>
    obtain ⟨n, i⟩ := d
    simp only [bnDecls] at h ⊢
    by_cases hi : (bnOptE i).2
    · simp [hi] at h
    · simp only [hi, Bool.false_eq_true, if_false] at h ⊢
      rw [ih h]

mutual
theorem bnE_false_id (parentBang : Bool) (e : Expr) :
    (bnE parentBang e).2 = false → (bnE parentBang e).1 = e := by
  intro h
  cases e with
  | boolLit b => rw [bnE] at h ⊢; rw [(visit_false h).2]
  | numLit n => rw [bnE] at h ⊢; rw [(visit_false h).2]
  | strLit s => rw [bnE] at h ⊢; rw [(visit_false h).2]
  | nullLit => rw [bnE] at h ⊢; rw [(visit_false h).2]
  | ident n => rw [bnE] at h ⊢; rw [(visit_false h).2]
  | unaryNot a =>
    rw [bnE] at h ⊢
    have hk := (visit_false h).2
    rw [hk] at h ⊢
    simp only at h ⊢
    rw [bnE_false_id true a h]
  | binary op l r =>
    rw [bnE] at h ⊢
    have hk := (visit_false h).2
    rw [hk] at h ⊢
    simp only at h ⊢
    by_cases hl : (bnE false l).2
    · simp [hl] at h
    · simp only [hl, Bool.false_eq_true, if_false] at h ⊢
      rw [bnE_false_id false r h]
  | logical op l r =>
    rw [bnE] at h ⊢
    have hk := (visit_false h).2
    rw [hk] at h ⊢
    simp only at h ⊢
    by_cases hl : (bnE false l).2
    · simp [hl] at h
    · simp only [hl, Bool.false_eq_true, if_false] at h ⊢
      rw [bnE_false_id false r h]
  | cond t c a =>
    rw [bnE] at h ⊢
    have hk := (visit_false h).2
    rw [hk] at h ⊢
    simp only at h ⊢
    by_cases ht : (bnE false t).2
    · simp [ht] at h
    · simp only [ht, Bool.false_eq_true, if_false] at h ⊢
      by_cases hc : (bnE false c).2
      · simp [hc] at h
      · simp only [hc, Bool.false_eq_true, if_false] at h ⊢
        rw [bnE_false_id false a h]
  | assign l r =>
    rw [bnE] at h ⊢
    have hk := (visit_false h).2
    rw [hk] at h ⊢
    simp only at h ⊢
    by_cases hl : (bnE false l).2
    · simp [hl] at h
    · simp only [hl, Bool.false_eq_true, if_false] at h ⊢
      rw [bnE_false_id false r h]
  | paren e0 =>
    rw [bnE] at h ⊢
    have hk := (visit_false h).2
    rw [hk] at h ⊢
    simp only at h ⊢
    rw [bnE_false_id false e0 h]
  | call c args =>
    rw [bnE] at h ⊢
    have hk := (visit_false h).2
    rw [hk] at h ⊢
    simp only at h ⊢
    by_cases hc : (bnE false c).2
    · simp [hc] at h
    · simp only [hc, Bool.false_eq_true, if_false] at h ⊢
      rw [bnEL_false_id args h]
  | member o comp p =>
    rw [bnE] at h ⊢
    have hk := (visit_false h).2
    rw [hk] at h ⊢
    simp only at h ⊢
    by_cases ho : (bnE false o).2
    · simp [ho] at h
    · simp only [ho, Bool.false_eq_true, if_false] at h ⊢
      rw [bnE_false_id false p h]

theorem bnEL_false_id (l : ExprList) :
    (bnEL l).2 = false → (bnEL l).1 = l := by
  intro h
  cases l with
  | nil => rfl
  | cons e es =>
    simp only [bnEL] at h ⊢
    by_cases he : (bnE false e).2
    · simp [he] at h
    · simp only [he, Bool.false_eq_true, if_false] at h ⊢
      rw [bnEL_false_id es h]
end

mutual
theorem bnS_false_id (s : Stmt) : (bnS s).2 = false → (bnS s).1 = s := by
  intro h
  cases s with
  | exprStmt e =>
    simp only [bnS] at h ⊢
    rw [bnE_false_id false e h]
  | varDecl ds =>
    simp only [bnS] at h ⊢
    rw [bnDecls_false_id ds (bnE_false_id false) h]
  | funcDecl n ps b =>
    simp only [bnS] at h ⊢
    rw [bnSL_false_id b h]
  | forStmt i t u b =>
    simp only [bnS] at h ⊢
    by_cases hi : (bnOS i).2
    · simp [hi] at h
    · simp only [hi, Bool.false_eq_true, if_false] at h ⊢
      by_cases ht : (bnOptE t).2
      · simp [ht] at h
      · simp only [ht, Bool.false_eq_true, if_false] at h ⊢
        by_cases hu : (bnOptE u).2
        · simp [hu] at h
        · simp only [hu, Bool.false_eq_true, if_false] at h ⊢
          rw [bnS_false_id b h]
  | whileStmt t b =>
    simp only [bnS] at h ⊢
    by_cases ht : (bnE false t).2
    · simp [ht] at h
    · simp only [ht, Bool.false_eq_true, if_false] at h ⊢
      rw [bnS_false_id b h]
  | doWhileStmt t b =>
    simp only [bnS] at h ⊢
    by_cases ht : (bnE false t).2
    · simp [ht] at h
    · simp only [ht, Bool.false_eq_true, if_false] at h ⊢
      rw [bnS_false_id b h]
  | block b =>
    simp only [bnS] at h ⊢
    rw [bnSL_false_id b h]
  | ret a =>
    simp only [bnS] at h ⊢
    rw [bnOptE_false_id a (bnE_false_id false) h]

theorem bnOS_false_id (o : OptStmt) : (bnOS o).2 = false → (bnOS o).1 = o := by
  intro h
  cases o with
  | none => rfl
  | some s =>
    simp only [bnOS] at h ⊢
    rw [bnS_false_id s h]

theorem bnSL_false_id (l : StmtList) : (bnSL l).2 = false → (bnSL l).1 = l := by
  intro h
  cases l with
  | nil => rfl
  | cons s ss =>
    simp only [bnSL] at h ⊢
    by_cases hs : (bnS s).2
    · simp [hs] at h
    · simp only [hs, Bool.false_eq_true, if_false] at h ⊢
      rw [bnSL_false_id ss h]
end

theorem bnOptE_snd (o : Option Expr)
    (he : ∀ e, (bnE false e).2 = bnAnyE false e) :
    (bnOptE o).2 = bnAnyOptE o := by
  cases o with
  | none => rfl
  | some e => simpa [bnOptE, bnAnyOptE] using he e

theorem bnDecls_snd (ds : List (List Char × Option Expr))
    (he : ∀ e, (bnE false e).2 = bnAnyE false e) :
    (bnDecls ds).2 = bnAnyDecls ds := by
  induction ds with
  | nil => rfl
  | cons d ds ih =>
    obtain ⟨n, i⟩ := d
    simp only [bnDecls, bnAnyDecls]
    rw [← bnOptE_snd i he]
    cases hi : (bnOptE i).2 <;> simp [hi, ih]

mutual
theorem bnE_snd (parentBang : Bool) (e : Expr) :
    (bnE parentBang e).2 = bnAnyE parentBang e := by
  cases e with
  | boolLit b => rw [bnE, bnAnyE, visit_snd, bnLocal_isSome]; simp
  | numLit n => rw [bnE, bnAnyE, visit_snd, bnLocal_isSome]; simp
  | strLit s => rw [bnE, bnAnyE, visit_snd, bnLocal_isSome]; simp
  | nullLit => rw [bnE, bnAnyE, visit_snd, bnLocal_isSome]; simp
  | ident n => rw [bnE, bnAnyE, visit_snd, bnLocal_isSome]; simp
  | unaryNot a =>
    rw [bnE, bnAnyE, visit_snd, bnLocal_isSome]
    simp only
    rw [bnE_snd true a]
  | binary op l r =>
    rw [bnE, bnAnyE, visit_snd, bnLocal_isSome]
    simp only
    rw [bnE_snd false l, bnE_snd false r]
    cases bnAnyE false l <;> simp
  | logical op l r =>
    rw [bnE, bnAnyE, visit_snd, bnLocal_isSome]
    simp only
    rw [bnE_snd false l, bnE_snd false r]
    cases bnAnyE false l <;> simp
  | cond t c a =>
    rw [bnE, bnAnyE, visit_snd, bnLocal_isSome]
    simp only
    rw [bnE_snd false t, bnE_snd false c, bnE_snd false a]
    cases bnAnyE false t <;> cases bnAnyE false c <;> simp
  | assign l r =>
    rw [bnE, bnAnyE, visit_snd, bnLocal_isSome]
    simp only
    rw [bnE_snd false l, bnE_snd false r]
    cases bnAnyE false l <;> simp
  | paren e0 =>
    rw [bnE, bnAnyE, visit_snd, bnLocal_isSome]
    simp only
    rw [bnE_snd false e0]
  | call c args =>
    rw [bnE, bnAnyE, visit_snd, bnLocal_isSome]
    simp only
    rw [bnE_snd false c, bnEL_snd args]
    cases bnAnyE false c <;> simp
  | member o comp p =>
    rw [bnE, bnAnyE, visit_snd, bnLocal_isSome]
    simp only
    rw [bnE_snd false o, bnE_snd false p]
    cases bnAnyE false o <;> simp

theorem bnEL_snd (l : ExprList) : (bnEL l).2 = bnAnyEL l := by
  cases l with
  | nil => rfl
  | cons e es =>
    rw [bnEL, bnAnyEL]
    simp only
    rw [bnE_snd false e, bnEL_snd es]
    cases bnAnyE false e <;> simp
end

mutual
theorem bnS_snd (s : Stmt) : (bnS s).2 = bnAnyS s := by
  cases s with
  | exprStmt e =>
    rw [bnS, bnAnyS]
    simp only
    rw [bnE_snd false e]
  | varDecl ds =>
    rw [bnS, bnAnyS]
    simp only
    rw [bnDecls_snd ds (bnE_snd false)]
  | funcDecl n ps b =>
    rw [bnS, bnAnyS]
    simp only
    rw [bnSL_snd b]
  | forStmt i t u b =>
    rw [bnS, bnAnyS]
    simp only
    rw [bnOS_snd i, bnOptE_snd t (bnE_snd false), bnOptE_snd u (bnE_snd false), bnS_snd b]
    cases bnAnyOS i <;> cases bnAnyOptE t <;> cases bnAnyOptE u <;> simp
  | whileStmt t b =>
    rw [bnS, bnAnyS]
    simp only
    rw [bnE_snd false t, bnS_snd b]
    cases bnAnyE false t <;> simp
  | doWhileStmt t b =>
    rw [bnS, bnAnyS]
    simp only
    rw [bnE_snd false t, bnS_snd b]
    cases bnAnyE false t <;> simp
  | block b =>
    rw [bnS, bnAnyS]
    simp only
    rw [bnSL_snd b]
  | ret a =>
    rw [bnS, bnAnyS]
    simp only
    rw [bnOptE_snd a (bnE_snd false)]

theorem bnOS_snd (o : OptStmt) : (bnOS o).2 = bnAnyOS o := by
  cases o with
  | none => rfl
  | some s =>
    rw [bnOS, bnAnyOS]
    simp only
    rw [bnS_snd s]

theorem bnSL_snd (l : StmtList) : (bnSL l).2 = bnAnySL l := by
  cases l with
  | nil => rfl
  | cons s ss =>
    rw [bnSL, bnAnySL]
    simp only
    rw [bnS_snd s, bnSL_snd ss]
    cases bnAnyS s <;> simp
end

mutual
theorem sgS_false_id (env : List (List Char)) (s : Stmt) :
    (sgS env s).2 = false → (sgS env s).1 = s := by
  intro h
  cases s with
  | exprStmt e => rfl
  | varDecl ds => rfl
  | ret a => rfl
  | funcDecl n ps b =>
    cases hv : sgVictim env (ps ++ topLevelNamesSL b) (refsSL b) with
    | some victim =>
      rw [sgS] at h
      simp only [hv] at h
      exact absurd h (by simp)
    | none =>
      rw [sgS] at h ⊢
      simp only [hv] at h ⊢
      rw [sgSL_false_id (env ++ (ps ++ topLevelNamesSL b)) b h]
  | forStmt i t u b =>
    rw [sgS] at h ⊢
    simp only at h ⊢
    by_cases hi : (sgOS env i).2
    · simp [hi] at h
    · simp only [hi, Bool.false_eq_true, if_false] at h ⊢
      rw [sgS_false_id (env ++ optTopNames i) b h]
  | whileStmt t b =>
    rw [sgS] at h ⊢
    simp only at h ⊢
    rw [sgS_false_id env b h]
  | doWhileStmt t b =>
    rw [sgS] at h ⊢
    simp only at h ⊢
    rw [sgS_false_id env b h]
  | block b =>
    rw [sgS] at h ⊢
    simp only at h ⊢
    rw [sgSL_false_id (env ++ topLevelNamesSL b) b h]

theorem sgOS_false_id (env : List (List Char)) (o : OptStmt) :
    (sgOS env o).2 = false → (sgOS env o).1 = o := by
  intro h
  cases o with
  | none => rfl
  | some s =>
    simp only [sgOS] at h ⊢
    rw [sgS_false_id env s h]

theorem sgSL_false_id (env : List (List Char)) (l : StmtList) :
    (sgSL env l).2 = false → (sgSL env l).1 = l := by
  intro h
  cases l with
  | nil => rfl
  | cons s ss =>
    simp only [sgSL] at h ⊢
    by_cases hs : (sgS env s).2
    · simp [hs] at h
    · simp only [hs, Bool.false_eq_true, if_false] at h ⊢
      rw [sgSL_false_id env ss h]
end

mutual
theorem sgS_snd (env : List (List Char)) (s : Stmt) :
    (sgS env s).2 = sgAnyS env s := by
  cases s with
  | exprStmt e => rfl
  | varDecl ds => rfl
  | ret a => rfl
  | funcDecl n ps b =>
    cases hv : sgVictim env (ps ++ topLevelNamesSL b) (refsSL b) with
    | some victim =>
      rw [sgS, sgAnyS]
      simp [hv]
    | none =>
      rw [sgS, sgAnyS]
      simp only [hv, Option.isSome_none, Bool.false_or]
      rw [sgSL_snd (env ++ (ps ++ topLevelNamesSL b)) b]
  | forStmt i t u b =>
    rw [sgS, sgAnyS]
    simp only
    rw [sgOS_snd env i, sgS_snd (env ++ optTopNames i) b]
    cases sgAnyOS env i <;> simp
  | whileStmt t b =>
    rw [sgS, sgAnyS]
    simp only
    rw [sgS_snd env b]
  | doWhileStmt t b =>
    rw [sgS, sgAnyS]
    simp only
    rw [sgS_snd env b]
  | block b =>
    rw [sgS, sgAnyS]
    simp only
    rw [sgSL_snd (env ++ topLevelNamesSL b) b]

theorem sgOS_snd (env : List (List Char)) (o : OptStmt) :
    (sgOS env o).2 = sgAnyOS env o := by
  cases o with
  | none => rfl
  | some s =>
    rw [sgOS, sgAnyOS]
    simp only
    rw [sgS_snd env s]

theorem sgSL_snd (env : List (List Char)) (l : StmtList) :
    (sgSL env l).2 = sgAnySL env l := by
  cases l with
  | nil => rfl
  | cons s ss =>
    rw [sgSL, sgAnySL]
    simp only
    rw [sgS_snd env s, sgSL_snd env ss]
    cases sgAnyS env s <;> simp
end

end injector

namespace injector

/-! ## Orchestrator facts. -/

theorem scanPool_some_not_mem (applied : List BugKind) :
    ∀ (pool : List Mutator) (t : Tree) {t2 : Tree} {k : BugKind},
      scanPool applied pool t = (t2, Option.some k) → k ∉ applied := by
  intro pool
  induction pool with
  | nil =>
    intro t t2 k h
    simp [scanPool] at h
  | cons m ms ih =>
    intro t t2 k h
    rw [scanPool] at h
    by_cases hm : m.kind ∈ applied
    · rw [if_pos hm] at h
      exact ih _ h
    · rw [if_neg hm] at h
      simp only at h
      by_cases hr : (m.apply t).2 = true
      · rw [if_pos hr] at h
        have hk : Option.some m.kind = Option.some k := congrArg Prod.snd h
        have hk2 : m.kind = k := Option.some.inj hk
        rw [← hk2]
        exact hm
      · rw [if_neg hr] at h
        exact ih _ h

theorem injectLoop_nodup (sh : Nat → List Mutator → List Mutator) (maxBugs : Int) :
    ∀ (fuel : Nat) (applied : List BugKind) (round : Nat) (avail : List Mutator) (t : Tree),
      applied.Nodup → (injectLoop sh maxBugs fuel applied round avail t).1.Nodup := by
  intro fuel
  induction fuel with
  | zero =>
    intro applied round avail t hnd
    simpa [injectLoop] using hnd
  | succ fuel ih =>
    intro applied round avail t hnd
    rw [injectLoop]
    by_cases hc : (applied.length : Int) < maxBugs
    · rw [if_pos hc]
      simp only
      rcases hscan : scanPool applied (sh round avail) t with ⟨t2, ok⟩
      cases ok with
      | some k =>
        have hk : k ∉ applied := scanPool_some_not_mem applied _ t hscan
        have hnd2 : (applied ++ [k]).Nodup := by
          rw [List.nodup_append]
          exact ⟨hnd, List.nodup_singleton k, by
            intro a ha hb
            rw [List.mem_singleton] at hb
            rw [hb] at ha
            exact hk ha⟩
        exact ih (applied ++ [k]) (round + 1) (sh round avail) t2 hnd2
      | none => exact hnd
    · rw [if_neg hc]
      exact hnd

theorem injectLoop_len (sh : Nat → List Mutator → List Mutator) (maxBugs : Int) :
    ∀ (fuel : Nat) (applied : List BugKind) (round : Nat) (avail : List Mutator) (t : Tree),
      applied.length ≤ maxBugs.toNat →
      (injectLoop sh maxBugs fuel applied round avail t).1.length ≤ maxBugs.toNat := by
  intro fuel
  induction fuel with
  | zero =>
    intro applied round avail t ha
    simpa [injectLoop] using ha
  | succ fuel ih =>
    intro applied round avail t ha
    rw [injectLoop]
    by_cases hc : (applied.length : Int) < maxBugs
    · rw [if_pos hc]
      simp only
      rcases hscan : scanPool applied (sh round avail) t with ⟨t2, ok⟩
      cases ok with
      | some k =>
        have h1 : (applied ++ [k]).length ≤ maxBugs.toNat := by
          simp only [List.length_append, List.length_singleton]
          omega
        exact ih (applied ++ [k]) (round + 1) (sh round avail) t2 h1
      | none => exact ha
    · rw [if_neg hc]
      exact ha

theorem injectLoop_stable (sh : Nat → List Mutator → List Mutator) (maxBugs : Int) :
    ∀ (f g : Nat) (applied : List BugKind) (round : Nat) (avail : List Mutator) (t : Tree),
      maxBugs.toNat ≤ f + applied.length → maxBugs.toNat ≤ g + applied.length →
      injectLoop sh maxBugs f applied round avail t =
        injectLoop sh maxBugs g applied round avail t := by
  intro f
  induction f with
  | zero =>
    intro g applied round avail t hf hg
    have hguard : ¬ ((applied.length : Int) < maxBugs) := by omega
    cases g with
    | zero => rfl
    | succ g =>
      rw [injectLoop, injectLoop, if_neg hguard]
  | succ f ih =>
    intro g applied round avail t hf hg
    by_cases hguard : (applied.length : Int) < maxBugs
    · have hg1 : 1 ≤ g := by omega
      obtain ⟨g2, rfl⟩ : ∃ g2, g = g2 + 1 := ⟨g - 1, by omega⟩
      rw [injectLoop, injectLoop, if_pos hguard, if_pos hguard]
      simp only
      rcases hscan : scanPool applied (sh round avail) t with ⟨t2, ok⟩
      cases ok with
      | some k =>
        have h3 : (applied ++ [k]).length = applied.length + 1 := by simp
        exact ih g2 (applied ++ [k]) (round + 1) (sh round avail) t2
          (by omega) (by omega)
      | none => rfl
    · cases g with
      | zero => rw [injectLoop, injectLoop, if_neg hguard]
      | succ g => rw [injectLoop, injectLoop, if_neg hguard, if_neg hguard]

end injector

/-- C1: for every shuffle behavior, every syntax tree, and every maxCount,
the orchestrator result list has no duplicate `BugKind` and has length at
most maxCount (for a non-positive maxCount it is empty), even though the
weighted catalog holds the kinds homoglyphSabotage and scopeGaslighting five
times each. -/
theorem claim_C1 :
    ∀ (sh : Nat → List injector.Mutator → List injector.Mutator) (t : Duck.Tree)
      (maxBugs : Int),
      ((injector.mutators.map injector.Mutator.kind).count BugKind.homoglyphSabotage = 5
        ∧ (injector.mutators.map injector.Mutator.kind).count BugKind.scopeGaslighting = 5)
      ∧ (injector.injectBugs sh t maxBugs).2.Nodup
      ∧ (injector.injectBugs sh t maxBugs).2.length ≤ maxBugs.toNat := by
  intro sh t maxBugs
  refine ⟨⟨by decide, by decide⟩, ?_, ?_⟩
  · unfold injector.injectBugs
    by_cases hr :
        (injector.injectLoop sh maxBugs (maxBugs.toNat + 1) [] 0 injector.mutators t).1 = []
    · simp [hr]
    · simp only [hr, if_false, if_neg hr]
      exact injector.injectLoop_nodup sh maxBugs _ [] 0 injector.mutators t List.nodup_nil
  · unfold injector.injectBugs
    by_cases hr :
        (injector.injectLoop sh maxBugs (maxBugs.toNat + 1) [] 0 injector.mutators t).1 = []
    · simp [hr]
    · simp only [hr, if_false, if_neg hr]
      exact injector.injectLoop_len sh maxBugs (maxBugs.toNat + 1) [] 0 injector.mutators t
        (by simp)

/-- C3: the orchestrator only returns an empty applied list together with the
original input (the tree is left unmutated), and a non-positive maxCount
always yields the empty list with the input returned unchanged. -/
theorem claim_C3 :
    ∀ (sh : Nat → List injector.Mutator → List injector.Mutator) (t : Duck.Tree)
      (maxBugs : Int),
      ((injector.injectBugs sh t maxBugs).2 = [] → (injector.injectBugs sh t maxBugs).1 = t)
      ∧ (maxBugs ≤ 0 → injector.injectBugs sh t maxBugs = (t, [])) := by
  intro sh t maxBugs
  constructor
  · intro h
    unfold injector.injectBugs at h ⊢
    by_cases hr :
        (injector.injectLoop sh maxBugs (maxBugs.toNat + 1) [] 0 injector.mutators t).1 = []
    · simp [hr]
    · simp only [hr, if_false, if_neg hr] at h
  · intro h
    have h0 : maxBugs.toNat = 0 := by omega
    unfold injector.injectBugs
    rw [h0]
    have hguard : ¬ ((([] : List BugKind).length : Int) < maxBugs) := by
      simp only [List.length_nil, Int.natCast_zero]
      omega
    rw [injector.injectLoop, if_neg hguard]
    rfl

/-- Witness for C3 at a concrete negative maxCount: the identity shuffle and
the empty program give back the program unchanged with no applied kinds. -/
theorem claim_C3_witness :
    injector.injectBugs (fun _ l => l) StmtList.nil (-2) = (StmtList.nil, []) :=
  (claim_C3 (fun _ l => l) StmtList.nil (-2)).2 (by decide)

/-- C9: the selection loop terminates: its result is independent of any fuel
at least maxCount (the loop exits by itself after at most one round per
applied kind plus a final round), and the number of successful iterations,
the length of the applied list, is at most the number of distinct kinds in
the catalog. -/
theorem claim_C9 :
    ∀ (sh : Nat → List injector.Mutator → List injector.Mutator) (t : Duck.Tree)
      (maxBugs : Int) (f : Nat),
      (maxBugs.toNat ≤ f →
        injector.injectLoop sh maxBugs f [] 0 injector.mutators t =
          injector.injectLoop sh maxBugs (maxBugs.toNat + 1) [] 0 injector.mutators t)
      ∧ (injector.injectBugs sh t maxBugs).2.length ≤
          ((injector.mutators.map injector.Mutator.kind).dedup).length := by
  intro sh t maxBugs f
  constructor
  · intro hf
    exact injector.injectLoop_stable sh maxBugs f (maxBugs.toNat + 1) [] 0
      injector.mutators t (by simpa using hf) (by simp)
  · have hnd : (injector.injectBugs sh t maxBugs).2.Nodup := (claim_C1 sh t maxBugs).2.1
    have hcard : (injector.injectBugs sh t maxBugs).2.length ≤ Fintype.card BugKind :=
      hnd.length_le_card
    have h12 : ((injector.mutators.map injector.Mutator.kind).dedup).length =
        Fintype.card BugKind := by decide
    rw [h12]
    exact hcard

/-- Witness for C9: with the identity shuffle, the empty program and
maxCount 1, fuel 3 and the canonical fuel 2 agree. -/
theorem claim_C9_witness :
    injector.injectLoop (fun _ l => l) 1 3 [] 0 injector.mutators StmtList.nil =
      injector.injectLoop (fun _ l => l) 1 2 [] 0 injector.mutators StmtList.nil :=
  (claim_C9 (fun _ l => l) StmtList.nil 1 3).1 (by decide)

/-! ## The homoglyph frame property (C8). -/

/-- `new` is `old` with exactly one character replaced by its confusable
substitute from the table. -/
def oneCharSwapB : List Char → List Char → Bool
  | c :: cs, d :: ds =>
    if c = d then oneCharSwapB cs ds
    else decide (injector.HOMOGLYPHS c = Option.some d) && decide (cs = ds)
  | _, _ => false

/-- Exactly one declarator name of the list is character-swapped; all
initializers and every other declarator are unchanged. -/
def oneDeclSwapB :
    List (List Char × Option Expr) → List (List Char × Option Expr) → Bool
  | (n, i) :: ds, (n2, i2) :: ds2 =>
    (oneCharSwapB n n2 && decide (i = i2) && decide (ds = ds2))
      || (decide (n = n2) && decide (i = i2) && oneDeclSwapB ds ds2)
  | _, _ => false

mutual
/-- The two statements agree except that exactly one declaration-site name
(a variable declarator id or a function declaration name) has one character
replaced by its confusable substitute. -/
inductive HgDiffS : Stmt → Stmt → Prop where
  | varDecl {ds ds2} : oneDeclSwapB ds ds2 = true →
      HgDiffS (.varDecl ds) (.varDecl ds2)
  | funcName {n n2 ps b} : oneCharSwapB n n2 = true →
      HgDiffS (.funcDecl n ps b) (.funcDecl n2 ps b)
  | funcBody {n ps b b2} : HgDiffL b b2 →
      HgDiffS (.funcDecl n ps b) (.funcDecl n ps b2)
  | forInit {i i2 t u b} : HgDiffO i i2 →
      HgDiffS (.forStmt i t u b) (.forStmt i2 t u b)
  | forBody {i t u b b2} : HgDiffS b b2 →
      HgDiffS (.forStmt i t u b) (.forStmt i t u b2)
  | whileBody {t b b2} : HgDiffS b b2 →
      HgDiffS (.whileStmt t b) (.whileStmt t b2)
  | doWhileBody {t b b2} : HgDiffS b b2 →
      HgDiffS (.doWhileStmt t b) (.doWhileStmt t b2)
  | blockBody {b b2} : HgDiffL b b2 →
      HgDiffS (.block b) (.block b2)

/-- One-name difference below an optional statement. -/
inductive HgDiffO : OptStmt → OptStmt → Prop where
  | some {s s2} : HgDiffS s s2 → HgDiffO (.some s) (.some s2)

/-- One-name difference inside a statement list: every statement but one is
unchanged. -/
inductive HgDiffL : StmtList → StmtList → Prop where
  | head {s s2 ss} : HgDiffS s s2 → HgDiffL (.cons s ss) (.cons s2 ss)
  | tail {s ss ss2} : HgDiffL ss ss2 → HgDiffL (.cons s ss) (.cons s ss2)
end

theorem HOMOGLYPHS_ne {c d : Char} : injector.HOMOGLYPHS c = Option.some d → c ≠ d := by
  unfold injector.HOMOGLYPHS
  split_ifs with h1 h2 h3 h4 h5 h6 h7 <;> intro h
  · injection h with h
    subst h1; subst h
    decide
  · injection h with h
    subst h2; subst h
    decide
  · injection h with h
    subst h3; subst h
    decide
  · injection h with h
    subst h4; subst h
    decide
  · injection h with h
    subst h5; subst h
    decide
  · injection h with h
    subst h6; subst h
    decide
  · injection h with h
    subst h7; subst h
    decide
  · exact absurd h (by simp)

theorem hgName_swap : ∀ (n n2 : List Char),
    injector.hgName n = Option.some n2 → oneCharSwapB n n2 = true := by
  intro n
  induction n with
  | nil => intro n2 h; simp [injector.hgName] at h
  | cons c rest ih =>
    intro n2 h
    rw [injector.hgName] at h
    cases hg : injector.HOMOGLYPHS c with
    | some h2 =>
      rw [hg] at h
      have hn2 : n2 = h2 :: rest := (Option.some.inj h).symm
      subst hn2
      rw [oneCharSwapB]
      rw [if_neg (HOMOGLYPHS_ne hg)]
      simp [hg]
    | none =>
      rw [hg] at h
      simp only [Option.map_eq_some'] at h
      obtain ⟨r2, hr2, hn2⟩ := h
      subst hn2
      rw [oneCharSwapB, if_pos rfl]
      exact ih r2 hr2

theorem hgDecls_swap : ∀ (ds ds2 : List (List Char × Option Expr)),
    injector.hgDecls ds = Option.some ds2 → oneDeclSwapB ds ds2 = true := by
  intro ds
  induction ds with
  | nil => intro ds2 h; simp [injector.hgDecls] at h
  | cons d rest ih =>
    intro ds2 h
    obtain ⟨n, i⟩ := d
    rw [injector.hgDecls] at h
    cases hg : injector.hgName n with
    | some n2 =>
      rw [hg] at h
      have hd2 : ds2 = (n2, i) :: rest := (Option.some.inj h).symm
      subst hd2
      rw [oneDeclSwapB]
      simp [hgName_swap n n2 hg]
    | none =>
      rw [hg] at h
      simp only [Option.map_eq_some'] at h
      obtain ⟨r2, hr2, hd2⟩ := h
      subst hd2
      rw [oneDeclSwapB]
      simp [ih r2 hr2]

mutual
theorem anyE_noExpr (e : Expr) :
    anyE (fun x => (injector.noExprMatch x).isSome) e = false := by
  cases e with
  | boolLit b => rfl
  | numLit n => rfl
  | strLit s => rfl
  | nullLit => rfl
  | ident n => rfl
  | unaryNot a => simp only [anyE, anyE_noExpr a]; rfl
  | binary op l r => simp only [anyE, anyE_noExpr l, anyE_noExpr r]; rfl
  | logical op l r => simp only [anyE, anyE_noExpr l, anyE_noExpr r]; rfl
  | cond t c a => simp only [anyE, anyE_noExpr t, anyE_noExpr c, anyE_noExpr a]; rfl
  | assign l r => simp only [anyE, anyE_noExpr l, anyE_noExpr r]; rfl
  | paren e0 => simp only [anyE, anyE_noExpr e0]; rfl
  | call c args => simp only [anyE, anyE_noExpr c, anyEL_noExpr args]; rfl
  | member o comp p => simp only [anyE, anyE_noExpr o, anyE_noExpr p]; rfl

theorem anyEL_noExpr (l : ExprList) :
    anyEL (fun x => (injector.noExprMatch x).isSome) l = false := by
  cases l with
  | nil => rfl
  | cons e es => simp only [anyEL, anyE_noExpr e, anyEL_noExpr es]; rfl
end

theorem anyOptE_noExpr (o : Option Expr) :
    anyOptE (fun x => (injector.noExprMatch x).isSome) o = false := by
  cases o with
  | none => rfl
  | some e => exact anyE_noExpr e

theorem anyDecls_noExpr (ds : List (List Char × Option Expr)) :
    anyDecls (fun x => (injector.noExprMatch x).isSome) ds = false := by
  induction ds with
  | nil => rfl
  | cons d rest ih =>
    obtain ⟨n, i⟩ := d
    simp only [anyDecls, anyOptE_noExpr, ih]
    rfl

theorem rwE_noExpr_snd (e : Expr) : (rwE injector.noExprMatch e).2 = false := by
  rw [rwE_snd]; exact anyE_noExpr e

theorem rwOptE_noExpr_snd (o : Option Expr) : (rwOptE injector.noExprMatch o).2 = false := by
  rw [rwOptE_snd injector.noExprMatch o (rwE_snd injector.noExprMatch)]
  exact anyOptE_noExpr o

theorem rwDecls_noExpr_snd (ds : List (List Char × Option Expr)) :
    (rwDecls injector.noExprMatch ds).2 = false := by
  rw [rwDecls_snd injector.noExprMatch ds (rwE_snd injector.noExprMatch)]
  exact anyDecls_noExpr ds

theorem prodEta {A B : Type} (p : A × B) {b : B} (h : p.2 = b) : p = (p.1, b) := by
  rw [← h]

mutual
theorem hgS_diff (s : Stmt) (s2 : Stmt) :
    rwS injector.fsHomoglyph injector.noExprMatch s = (s2, true) → HgDiffS s s2 := by
  intro h
  cases s with
  | exprStmt e =>
    rw [rwS] at h
    unfold visit at h
    simp only [injector.fsHomoglyph] at h
    have h2 := congrArg Prod.snd h
    simp only at h2
    rw [rwE_noExpr_snd e] at h2
    exact absurd h2 (by simp)
  | varDecl ds =>
    rw [rwS] at h
    unfold visit at h
    simp only [injector.fsHomoglyph] at h
    cases hd : injector.hgDecls ds with
    | some ds2 =>
      rw [hd] at h
      simp only at h
      have h1 := congrArg Prod.fst h
      simp only at h1
      rw [← h1]
      exact HgDiffS.varDecl (hgDecls_swap ds ds2 hd)
    | none =>
      rw [hd] at h
      simp only at h
      have h2 := congrArg Prod.snd h
      simp only at h2
      rw [rwDecls_noExpr_snd ds] at h2
      exact absurd h2 (by simp)
  | funcDecl n ps b =>
    rw [rwS] at h
    unfold visit at h
    simp only [injector.fsHomoglyph] at h
    cases hn : injector.hgName n with
    | some n2 =>
      rw [hn] at h
      simp only at h
      have h1 := congrArg Prod.fst h
      simp only at h1
      rw [← h1]
      exact HgDiffS.funcName (hgName_swap n n2 hn)
    | none =>
      rw [hn] at h
      simp only at h
      have h1 := congrArg Prod.fst h
      have h2 := congrArg Prod.snd h
      simp only at h1 h2
      rw [← h1]
      exact HgDiffS.funcBody (hgSL_diff b _ (prodEta _ h2))
  | forStmt i t u b =>
    rw [rwS] at h
    unfold visit at h
    simp only [injector.fsHomoglyph] at h
    by_cases hi : (rwOS injector.fsHomoglyph injector.noExprMatch i).2 = true
    · rw [if_pos hi] at h
      have h1 := congrArg Prod.fst h
      simp only at h1
      rw [← h1]
      exact HgDiffS.forInit (hgOS_diff i _ (prodEta _ hi))
    · rw [if_neg hi] at h
      rw [if_neg (by rw [rwOptE_noExpr_snd t]; simp)] at h
      rw [if_neg (by rw [rwOptE_noExpr_snd u]; simp)] at h
      have h1 := congrArg Prod.fst h
      have h2 := congrArg Prod.snd h
      simp only at h1 h2
      rw [← h1]
      exact HgDiffS.forBody (hgS_diff b _ (prodEta _ h2))
  | whileStmt t b =>
    rw [rwS] at h
    unfold visit at h
    simp only [injector.fsHomoglyph] at h
    rw [if_neg (by rw [rwE_noExpr_snd t]; simp)] at h
    have h1 := congrArg Prod.fst h
    have h2 := congrArg Prod.snd h
    simp only at h1 h2
    rw [← h1]
    exact HgDiffS.whileBody (hgS_diff b _ (prodEta _ h2))
  | doWhileStmt t b =>
    rw [rwS] at h
    unfold visit at h
    simp only [injector.fsHomoglyph] at h
    rw [if_neg (by rw [rwE_noExpr_snd t]; simp)] at h
    have h1 := congrArg Prod.fst h
    have h2 := congrArg Prod.snd h
    simp only at h1 h2
    rw [← h1]
    exact HgDiffS.doWhileBody (hgS_diff b _ (prodEta _ h2))
  | block b =>
    rw [rwS] at h
    unfold visit at h
    simp only [injector.fsHomoglyph] at h
    have h1 := congrArg Prod.fst h
    have h2 := congrArg Prod.snd h
    simp only at h1 h2
    rw [← h1]
    exact HgDiffS.blockBody (hgSL_diff b _ (prodEta _ h2))
  | ret a =>
    rw [rwS] at h
    unfold visit at h
    simp only [injector.fsHomoglyph] at h
    have h2 := congrArg Prod.snd h
    simp only at h2
    rw [rwOptE_noExpr_snd a] at h2
    exact absurd h2 (by simp)

theorem hgOS_diff (o : OptStmt) (o2 : OptStmt) :
    rwOS injector.fsHomoglyph injector.noExprMatch o = (o2, true) → HgDiffO o o2 := by
  intro h
  cases o with
  | none =>
    have h2 := congrArg Prod.snd h
    simp [rwOS] at h2
  | some s =>
    rw [rwOS] at h
    have h1 := congrArg Prod.fst h
    have h2 := congrArg Prod.snd h
    simp only at h1 h2
    rw [← h1]
    exact HgDiffO.some (hgS_diff s _ (prodEta _ h2))

theorem hgSL_diff (l : StmtList) (l2 : StmtList) :
    rwSL injector.fsHomoglyph injector.noExprMatch l = (l2, true) → HgDiffL l l2 := by
  intro h
  cases l with
  | nil =>
    have h2 := congrArg Prod.snd h
    simp [rwSL] at h2
  | cons s ss =>
    rw [rwSL] at h
    simp only at h
    by_cases hs : (rwS injector.fsHomoglyph injector.noExprMatch s).2 = true
    · rw [if_pos hs] at h
      have h1 := congrArg Prod.fst h
      simp only at h1
      rw [← h1]
      exact HgDiffL.head (hgS_diff s _ (prodEta _ hs))
    · rw [if_neg hs] at h
      have h1 := congrArg Prod.fst h
      have h2 := congrArg Prod.snd h
      simp only at h1 h2
      rw [← h1]
      exact HgDiffL.tail (hgSL_diff ss _ (prodEta _ h2))
end

theorem hgDecls_refs : ∀ (ds ds2 : List (List Char × Option Expr)),
    injector.hgDecls ds = Option.some ds2 →
      injector.refsDecls ds2 = injector.refsDecls ds := by
  intro ds
  induction ds with
  | nil => intro ds2 h; simp [injector.hgDecls] at h
  | cons d rest ih =>
    intro ds2 h
    obtain ⟨n, i⟩ := d
    rw [injector.hgDecls] at h
    cases hg : injector.hgName n with
    | some n2 =>
      rw [hg] at h
      have hd2 : ds2 = (n2, i) :: rest := (Option.some.inj h).symm
      subst hd2
      rfl
    | none =>
      rw [hg] at h
      simp only [Option.map_eq_some'] at h
      obtain ⟨r2, hr2, hd2⟩ := h
      subst hd2
      simp only [injector.refsDecls]
      rw [ih r2 hr2]

mutual
theorem hgS_refs (s : Stmt) :
    injector.refsS (rwS injector.fsHomoglyph injector.noExprMatch s).1 =
      injector.refsS s := by
  cases s with
  | exprStmt e =>
    rw [rwS]
    unfold visit
    simp only [injector.fsHomoglyph]
    simp only [injector.refsS]
    rw [rwE_false_id injector.noExprMatch e (rwE_noExpr_snd e)]
  | varDecl ds =>
    rw [rwS]
    unfold visit
    simp only [injector.fsHomoglyph]
    cases hd : injector.hgDecls ds with
    | some ds2 =>
      simp only [injector.refsS]
      exact hgDecls_refs ds ds2 hd
    | none =>
      simp only [injector.refsS]
      rw [rwDecls_false_id injector.noExprMatch ds (rwE_false_id injector.noExprMatch)
        (rwDecls_noExpr_snd ds)]
  | funcDecl n ps b =>
    rw [rwS]
    unfold visit
    simp only [injector.fsHomoglyph]
    cases hn : injector.hgName n with
    | some n2 => simp only [injector.refsS]
    | none =>
      simp only [injector.refsS]
      exact hgSL_refs b
  | forStmt i t u b =>
    rw [rwS]
    unfold visit
    simp only [injector.fsHomoglyph]
    by_cases hi : (rwOS injector.fsHomoglyph injector.noExprMatch i).2 = true
    · rw [if_pos hi]
      simp only [injector.refsS]
      rw [hgOS_refs i]
    · rw [if_neg hi]
      rw [if_neg (by rw [rwOptE_noExpr_snd t]; simp)]
      rw [if_neg (by rw [rwOptE_noExpr_snd u]; simp)]
      simp only [injector.refsS]
      rw [hgS_refs b]
  | whileStmt t b =>
    rw [rwS]
    unfold visit
    simp only [injector.fsHomoglyph]
    rw [if_neg (by rw [rwE_noExpr_snd t]; simp)]
    simp only [injector.refsS]
    rw [hgS_refs b]
  | doWhileStmt t b =>
    rw [rwS]
    unfold visit
    simp only [injector.fsHomoglyph]
    rw [if_neg (by rw [rwE_noExpr_snd t]; simp)]
    simp only [injector.refsS]
    rw [hgS_refs b]
  | block b =>
    rw [rwS]
    unfold visit
    simp only [injector.fsHomoglyph]
    simp only [injector.refsS]
    exact hgSL_refs b
  | ret a =>
    rw [rwS]
    unfold visit
    simp only [injector.fsHomoglyph]
    simp only [injector.refsS]
    rw [rwOptE_false_id injector.noExprMatch a (rwE_false_id injector.noExprMatch)
      (rwOptE_noExpr_snd a)]
  termination_by structural s

theorem hgOS_refs (o : OptStmt) :
    injector.refsOS (rwOS injector.fsHomoglyph injector.noExprMatch o).1 =
      injector.refsOS o := by
  cases o with
  | none => rfl
  | some s =>
    rw [rwOS]
    simp only [injector.refsOS]
    exact hgS_refs s
  termination_by structural o

theorem hgSL_refs (l : StmtList) :
    injector.refsSL (rwSL injector.fsHomoglyph injector.noExprMatch l).1 =
      injector.refsSL l := by
  cases l with
  | nil => rfl
  | cons s ss =>
    rw [rwSL]
    simp only
    by_cases hs : (rwS injector.fsHomoglyph injector.noExprMatch s).2 = true
    · rw [if_pos hs]
      simp only [injector.refsSL]
      rw [hgS_refs s]
    · rw [if_neg hs]
      simp only [injector.refsSL]
      rw [hgSL_refs ss]
  termination_by structural l
end

/-- C8: a successful homoglyphSabotage application changes exactly one
declaration-site name (a variable declarator id or a function declaration
name), replacing exactly one character by its confusable substitute, and
changes no other node; in particular every reference occurrence elsewhere in
the tree keeps its original spelling. -/
theorem claim_C8 :
    ∀ (t t2 : Duck.Tree),
      injector.applyHomoglyphSabotageBug t = (t2, true) →
        HgDiffL t t2 ∧ injector.refsSL t2 = injector.refsSL t := by
  intro t t2 h
  refine ⟨hgSL_diff t t2 h, ?_⟩
  have h1 := congrArg Prod.fst h
  simp only at h1
  rw [← h1]
  exact hgSL_refs t

/-- Witness for C8 on the spec scenario `let cat = 5; console.log(cat)`: the
declaration name gains a Cyrillic first letter, the reference keeps the
original spelling. -/
theorem claim_C8_witness :
    HgDiffL
      (StmtList.cons (Stmt.varDecl [("cat".toList, Option.some (Expr.numLit 5))])
        (StmtList.cons
          (Stmt.exprStmt
            (Expr.call
              (Expr.member (Expr.ident "console".toList) false (Expr.ident "log".toList))
              (ExprList.cons (Expr.ident "cat".toList) ExprList.nil)))
          StmtList.nil))
      (StmtList.cons (Stmt.varDecl [("сat".toList, Option.some (Expr.numLit 5))])
        (StmtList.cons
          (Stmt.exprStmt
            (Expr.call
              (Expr.member (Expr.ident "console".toList) false (Expr.ident "log".toList))
              (ExprList.cons (Expr.ident "cat".toList) ExprList.nil)))
          StmtList.nil))
    ∧ injector.refsSL
        (StmtList.cons (Stmt.varDecl [("сat".toList, Option.some (Expr.numLit 5))])
          (StmtList.cons
            (Stmt.exprStmt
              (Expr.call
                (Expr.member (Expr.ident "console".toList) false (Expr.ident "log".toList))
                (ExprList.cons (Expr.ident "cat".toList) ExprList.nil)))
            StmtList.nil)) =
      injector.refsSL
        (StmtList.cons (Stmt.varDecl [("cat".toList, Option.some (Expr.numLit 5))])
          (StmtList.cons
            (Stmt.exprStmt
              (Expr.call
                (Expr.member (Expr.ident "console".toList) false (Expr.ident "log".toList))
                (ExprList.cons (Expr.ident "cat".toList) ExprList.nil)))
            StmtList.nil)) :=
  claim_C8 _ _ (by decide)

namespace extension

/-! ## The extension module: flip tables and the indexOffByOne rule. -/

/-- The boundary-operator switch of the extension module. -/
def flipBoundaryOperator : BinOp → Option BinOp
  | .lt => Option.some .le
  | .le => Option.some .lt
  | .gt => Option.some .ge
  | .ge => Option.some .gt
  | _ => Option.none

/-- The comparison-direction switch of the extension module. -/
def flipComparisonDirectionOperator : BinOp → Option BinOp
  | .gt => Option.some .lt
  | .lt => Option.some .gt
  | .ge => Option.some .le
  | .le => Option.some .ge
  | _ => Option.none

/-- The equality-inequality switch of the extension module (loose operators
become strict on purpose). -/
def flipEqualityInequalityOperator : BinOp → Option BinOp
  | .eqLoose => Option.some .neqStrict
  | .neqLoose => Option.some .eqStrict
  | .eqStrict => Option.some .neqStrict
  | .neqStrict => Option.some .eqStrict
  | _ => Option.none

/-- `n <= 0 ? n + 1 : n + 1` from the extension helpers. -/
def addOneToIndexLiteral (n : Int) : Int := if n ≤ 0 then n + 1 else n + 1

/-- An identifier name or string-literal value (the shapes
`getMemberPropertyName` accepts for a property). -/
def propName : Expr → Option (List Char)
  | .ident n => Option.some n
  | .strLit s2 => Option.some s2
  | _ => Option.none

/-- Property name of a member expression: undefined when computed, else the
identifier name or string-literal value. -/
def getMemberPropertyName : Expr → Option (List Char)
  | .member _ computed p => if computed then Option.none else propName p
  | _ => Option.none

/-- The index-taking methods. -/
def indexy : List (List Char) :=
  ["at".toList, "charAt".toList, "slice".toList, "substring".toList, "substr".toList]

/-- `t.isNumericLiteral`: the value of a numeric-literal node. -/
def isNumLit : Expr → Option Int
  | .numLit n => Option.some n
  | _ => Option.none

/-- Increment the first numeric-literal argument, if any. -/
def incFirstNumArg : ExprList → Option ExprList
  | .nil => Option.none
  | .cons e rest =>
    match isNumLit e with
    | Option.some n => Option.some (.cons (.numLit (addOneToIndexLiteral n)) rest)
    | Option.none =>
      match incFirstNumArg rest with
      | Option.some r2 => Option.some (.cons e r2)
      | Option.none => Option.none

/-- The member-access arm of the extension indexOffByOne rule: a computed
member access with a numeric-literal index gets the index incremented. -/
def memberIdxRw (o : Expr) (comp : Bool) (p : Expr) : Option Expr :=
  match comp, isNumLit p with
  | true, Option.some n =>
    Option.some (.member o true (.numLit (addOneToIndexLiteral n)))
  | _, _ => Option.none

/-- Node-local matcher of the extension indexOffByOne rule: a computed
member access with a numeric-literal index, or a call to an index-taking
method with a numeric-literal argument. -/
def fIndexOffByOne : Expr → Option Expr
  | .member o comp p => memberIdxRw o comp p
  | .call c args =>
    (match getMemberPropertyName c with
     | Option.some m =>
       if m ∈ indexy then
         match incFirstNumArg args with
         | Option.some args2 => Option.some (.call c args2)
         | Option.none => Option.none
       else Option.none
     | Option.none => Option.none)
  | _ => Option.none

/-- The extension indexOffByOne rule. -/
def applyIndexOffByOneBug : Tree → Tree × Bool := rwSL injector.noStmtMatch fIndexOffByOne

/-- The first numeric-literal argument value, if any. -/
def firstNumArg : ExprList → Option Int
  | .nil => Option.none
  | .cons e rest =>
    match isNumLit e with
    | Option.some n => Option.some n
    | Option.none => firstNumArg rest

/-- The qualifying literal a member node offers: a computed numeric index. -/
def memberQual (comp : Bool) (p : Expr) : List Int :=
  match comp, isNumLit p with
  | true, Option.some n => [n]
  | _, _ => []

/-- The qualifying literal a call node offers: the first numeric argument of
an index-taking method call. -/
def callIndexVal (c : Expr) (args : ExprList) : Option Int :=
  match getMemberPropertyName c with
  | Option.some m => if m ∈ indexy then firstNumArg args else Option.none
  | Option.none => Option.none

mutual
/-- Values of all qualifying index literals below an expression, in the
order the rule traversal meets them. -/
def qualE : Expr → List Int
  | .boolLit _ => []
  | .numLit _ => []
  | .strLit _ => []
  | .nullLit => []
  | .ident _ => []
  | .unaryNot a => qualE a
  | .binary _ l r => qualE l ++ qualE r
  | .logical _ l r => qualE l ++ qualE r
  | .cond t c a => qualE t ++ qualE c ++ qualE a
  | .assign l r => qualE l ++ qualE r
  | .paren e0 => qualE e0
  | .call c args => (callIndexVal c args).toList ++ qualE c ++ qualEL args
  | .member o comp p => memberQual comp p ++ qualE o ++ qualE p
  termination_by structural e => e

/-- Qualifying literals below an argument list. -/
def qualEL : ExprList → List Int
  | .nil => []
  | .cons e es => qualE e ++ qualEL es
  termination_by structural l => l
end

/-- Qualifying literals below an optional expression. -/
def qualOptE : Option Expr → List Int
  | Option.none => []
  | Option.some e => qualE e

/-- Qualifying literals below declarator initializers. -/
def qualDecls : List (List Char × Option Expr) → List Int
  | [] => []
  | (_, i) :: ds => qualOptE i ++ qualDecls ds

mutual
/-- Qualifying literals below a statement. -/
def qualS : Stmt → List Int
  | .exprStmt e => qualE e
  | .varDecl ds => qualDecls ds
  | .funcDecl _ _ b => qualSL b
  | .forStmt i t u b => qualOS i ++ qualOptE t ++ qualOptE u ++ qualS b
  | .whileStmt t b => qualE t ++ qualS b
  | .doWhileStmt t b => qualE t ++ qualS b
  | .block b => qualSL b
  | .ret a => qualOptE a
  termination_by structural s => s

/-- Qualifying literals below an optional statement. -/
def qualOS : OptStmt → List Int
  | .none => []
  | .some s => qualS s
  termination_by structural o => o

/-- Qualifying literals below a statement list. -/
def qualSL : StmtList → List Int
  | .nil => []
  | .cons s ss => qualS s ++ qualSL ss
  termination_by structural l => l
end

end extension

/-- C4: the boundary flip and the comparison-direction flip are involutions
on their domains, while the equality flip is not involutive on the loose
operators: flipping == twice yields ===, not ==. -/
theorem claim_C4 :
    (∀ op op2, extension.flipBoundaryOperator op = Option.some op2 →
      extension.flipBoundaryOperator op2 = Option.some op)
    ∧ (∀ op op2, extension.flipComparisonDirectionOperator op = Option.some op2 →
      extension.flipComparisonDirectionOperator op2 = Option.some op)
    ∧ extension.flipEqualityInequalityOperator BinOp.eqLoose = Option.some BinOp.neqStrict
    ∧ (extension.flipEqualityInequalityOperator BinOp.eqLoose).bind
        extension.flipEqualityInequalityOperator = Option.some BinOp.eqStrict
    ∧ BinOp.eqStrict ≠ BinOp.eqLoose := by
  refine ⟨?_, ?_, by decide, by decide, by decide⟩
  · intro op op2 h
    cases op <;> simp_all [extension.flipBoundaryOperator] <;> subst h <;> rfl
  · intro op op2 h
    cases op <;> simp_all [extension.flipComparisonDirectionOperator] <;> subst h <;> rfl

/-- Witness for C4: flipping < gives <=, and flipping that gives back <. -/
theorem claim_C4_witness :
    extension.flipBoundaryOperator BinOp.le = Option.some BinOp.lt :=
  claim_C4.1 BinOp.lt BinOp.le (by decide)

theorem addOne_eq (n : Int) : extension.addOneToIndexLiteral n = n + 1 := by
  unfold extension.addOneToIndexLiteral
  split <;> rfl

theorem isEmpty_app (a b : List Int) : (a ++ b).isEmpty = (a.isEmpty && b.isEmpty) := by
  cases a <;> cases b <;> simp

theorem toList_isEmpty (o : Option Int) : (o.toList).isEmpty = !o.isSome := by
  cases o <;> rfl

theorem isNumLit_eq {e : Expr} {n : Int} :
    extension.isNumLit e = Option.some n → e = .numLit n := by
  cases e <;> simp [extension.isNumLit]

theorem incFirst_isSome (args : ExprList) :
    (extension.incFirstNumArg args).isSome = (extension.firstNumArg args).isSome := by
  cases args with
  | nil => rfl
  | cons e es =>
    have ih := incFirst_isSome es
    rw [extension.incFirstNumArg, extension.firstNumArg]
    cases hn : extension.isNumLit e with
    | some n => rfl
    | none =>
      simp only
      cases hi : extension.incFirstNumArg es <;> cases hf : extension.firstNumArg es <;>
        simp_all
  termination_by structural args

theorem fIdx_call (c : Expr) (args : ExprList) :
    (extension.fIndexOffByOne (.call c args)).isSome =
      (extension.callIndexVal c args).isSome := by
  rw [extension.fIndexOffByOne, extension.callIndexVal]
  cases hg : extension.getMemberPropertyName c with
  | none => rfl
  | some m =>
    simp only
    by_cases hm : m ∈ extension.indexy
    · rw [if_pos hm, if_pos hm]
      have h2 : (match extension.incFirstNumArg args with
          | Option.some args2 => Option.some (Expr.call c args2)
          | Option.none => Option.none).isSome = (extension.incFirstNumArg args).isSome := by
        cases extension.incFirstNumArg args <;> rfl
      rw [h2, incFirst_isSome]
    · rw [if_neg hm, if_neg hm]
      rfl

theorem fIdx_member_local (o : Expr) (comp : Bool) (p : Expr) :
    (extension.fIndexOffByOne (.member o comp p)).isSome =
      !(extension.memberQual comp p).isEmpty := by
  rw [extension.fIndexOffByOne]
  unfold extension.memberIdxRw extension.memberQual
  cases comp <;> cases hp : extension.isNumLit p <;> rfl

mutual
theorem anyE_qual (e : Expr) :
    anyE (fun x => (extension.fIndexOffByOne x).isSome) e =
      !(extension.qualE e).isEmpty := by
  cases e with
  | boolLit b => rfl
  | numLit n => rfl
  | strLit s => rfl
  | nullLit => rfl
  | ident n => rfl
  | unaryNot a =>
    rw [anyE, extension.qualE, anyE_qual a]
    rfl
  | binary op l r =>
    rw [anyE, extension.qualE, isEmpty_app, Bool.not_and, anyE_qual l, anyE_qual r]
    rfl
  | logical op l r =>
    rw [anyE, extension.qualE, isEmpty_app, Bool.not_and, anyE_qual l, anyE_qual r]
    rfl
  | cond t c a =>
    rw [anyE, extension.qualE, isEmpty_app, isEmpty_app, Bool.not_and, Bool.not_and,
      anyE_qual t, anyE_qual c, anyE_qual a]
    rfl
  | assign l r =>
    rw [anyE, extension.qualE, isEmpty_app, Bool.not_and, anyE_qual l, anyE_qual r]
    rfl
  | paren e0 =>
    rw [anyE, extension.qualE, anyE_qual e0]
    rfl
  | call c args =>
    rw [anyE, extension.qualE, isEmpty_app, isEmpty_app, Bool.not_and, Bool.not_and,
      anyE_qual c, anyEL_qual args, toList_isEmpty, Bool.not_not]
    rw [fIdx_call]
  | member o comp p =>
    rw [anyE, extension.qualE, isEmpty_app, isEmpty_app, Bool.not_and, Bool.not_and,
      anyE_qual o, anyE_qual p, fIdx_member_local]

theorem anyEL_qual (l : ExprList) :
    anyEL (fun x => (extension.fIndexOffByOne x).isSome) l =
      !(extension.qualEL l).isEmpty := by
  cases l with
  | nil => rfl
  | cons e es =>
    rw [anyEL, extension.qualEL, isEmpty_app, Bool.not_and, anyE_qual e, anyEL_qual es]
end

theorem anyOptE_qual (o : Option Expr) :
    anyOptE (fun x => (extension.fIndexOffByOne x).isSome) o =
      !(extension.qualOptE o).isEmpty := by
  cases o with
  | none => rfl
  | some e => exact anyE_qual e

theorem anyDecls_qual (ds : List (List Char × Option Expr)) :
    anyDecls (fun x => (extension.fIndexOffByOne x).isSome) ds =
      !(extension.qualDecls ds).isEmpty := by
  induction ds with
  | nil => rfl
  | cons d rest ih =>
    obtain ⟨n, i⟩ := d
    rw [anyDecls, extension.qualDecls, isEmpty_app, Bool.not_and, anyOptE_qual i, ih]

mutual
theorem anyS_qual (s : Stmt) :
    anyS (fun x => (injector.noStmtMatch x).isSome)
      (fun x => (extension.fIndexOffByOne x).isSome) s = !(extension.qualS s).isEmpty := by
  cases s with
  | exprStmt e =>
    rw [anyS, extension.qualS, anyE_qual e]
    rfl
  | varDecl ds =>
    rw [anyS, extension.qualS, anyDecls_qual ds]
    rfl
  | funcDecl n ps b =>
    rw [anyS, extension.qualS, anySL_qual b]
    rfl
  | forStmt i t u b =>
    rw [anyS, extension.qualS, isEmpty_app, isEmpty_app, isEmpty_app, Bool.not_and,
      Bool.not_and, Bool.not_and, anyOS_qual i, anyOptE_qual t, anyOptE_qual u, anyS_qual b]
    rfl
  | whileStmt t b =>
    rw [anyS, extension.qualS, isEmpty_app, Bool.not_and, anyE_qual t, anyS_qual b]
    rfl
  | doWhileStmt t b =>
    rw [anyS, extension.qualS, isEmpty_app, Bool.not_and, anyE_qual t, anyS_qual b]
    rfl
  | block b =>
    rw [anyS, extension.qualS, anySL_qual b]
    rfl
  | ret a =>
    rw [anyS, extension.qualS, anyOptE_qual a]
    rfl

theorem anyOS_qual (o : OptStmt) :
    anyOS (fun x => (injector.noStmtMatch x).isSome)
      (fun x => (extension.fIndexOffByOne x).isSome) o = !(extension.qualOS o).isEmpty := by
  cases o with
  | none => rfl
  | some s =>
    rw [anyOS, extension.qualOS]
    exact anyS_qual s

theorem anySL_qual (l : StmtList) :
    anySL (fun x => (injector.noStmtMatch x).isSome)
      (fun x => (extension.fIndexOffByOne x).isSome) l = !(extension.qualSL l).isEmpty := by
  cases l with
  | nil => rfl
  | cons s ss =>
    rw [anySL, extension.qualSL, isEmpty_app, Bool.not_and, anyS_qual s, anySL_qual ss]
end

theorem qualE_nil (e : Expr) :
    (rwE extension.fIndexOffByOne e).2 = false → extension.qualE e = [] := by
  intro h
  have h1 : (!(extension.qualE e).isEmpty) = false := by
    rw [← anyE_qual e, ← rwE_snd]
    exact h
  cases hq : extension.qualE e with
  | nil => rfl
  | cons a as => rw [hq] at h1; simp at h1

theorem qualEL_nil (l : ExprList) :
    (rwEL extension.fIndexOffByOne l).2 = false → extension.qualEL l = [] := by
  intro h
  have h1 : (!(extension.qualEL l).isEmpty) = false := by
    rw [← anyEL_qual l, ← rwEL_snd]
    exact h
  cases hq : extension.qualEL l with
  | nil => rfl
  | cons a as => rw [hq] at h1; simp at h1

theorem qualOptE_nil (o : Option Expr) :
    (rwOptE extension.fIndexOffByOne o).2 = false → extension.qualOptE o = [] := by
  intro h
  have h1 : (!(extension.qualOptE o).isEmpty) = false := by
    rw [← anyOptE_qual o, ← rwOptE_snd extension.fIndexOffByOne o (rwE_snd extension.fIndexOffByOne)]
    exact h
  cases hq : extension.qualOptE o with
  | nil => rfl
  | cons a as => rw [hq] at h1; simp at h1

theorem qualDecls_nil (ds : List (List Char × Option Expr)) :
    (rwDecls extension.fIndexOffByOne ds).2 = false → extension.qualDecls ds = [] := by
  intro h
  have h1 : (!(extension.qualDecls ds).isEmpty) = false := by
    rw [← anyDecls_qual ds, ← rwDecls_snd extension.fIndexOffByOne ds (rwE_snd extension.fIndexOffByOne)]
    exact h
  cases hq : extension.qualDecls ds with
  | nil => rfl
  | cons a as => rw [hq] at h1; simp at h1

theorem qualS_nil (s : Stmt) :
    (rwS injector.noStmtMatch extension.fIndexOffByOne s).2 = false →
      extension.qualS s = [] := by
  intro h
  have h1 : (!(extension.qualS s).isEmpty) = false := by
    rw [← anyS_qual s, ← rwS_snd]
    exact h
  cases hq : extension.qualS s with
  | nil => rfl
  | cons a as => rw [hq] at h1; simp at h1

theorem qualOS_nil (o : OptStmt) :
    (rwOS injector.noStmtMatch extension.fIndexOffByOne o).2 = false →
      extension.qualOS o = [] := by
  intro h
  have h1 : (!(extension.qualOS o).isEmpty) = false := by
    rw [← anyOS_qual o, ← rwOS_snd]
    exact h
  cases hq : extension.qualOS o with
  | nil => rfl
  | cons a as => rw [hq] at h1; simp at h1

theorem qualSL_nil (l : StmtList) :
    (rwSL injector.noStmtMatch extension.fIndexOffByOne l).2 = false →
      extension.qualSL l = [] := by
  intro h
  have h1 : (!(extension.qualSL l).isEmpty) = false := by
    rw [← anySL_qual l, ← rwSL_snd]
    exact h
  cases hq : extension.qualSL l with
  | nil => rfl
  | cons a as => rw [hq] at h1; simp at h1

theorem fIdx_member_some {o : Expr} {comp : Bool} {p : Expr} {y : Expr} :
    extension.fIndexOffByOne (.member o comp p) = Option.some y →
      ∃ n, comp = true ∧ extension.isNumLit p = Option.some n ∧
        y = .member o true (.numLit (extension.addOneToIndexLiteral n)) := by
  intro h
  rw [extension.fIndexOffByOne] at h
  unfold extension.memberIdxRw at h
  cases comp with
  | false => exact Option.noConfusion h
  | true =>
    cases hp : extension.isNumLit p with
    | none =>
      rw [hp] at h
      exact Option.noConfusion h
    | some n =>
      rw [hp] at h
      exact ⟨n, rfl, rfl, (Option.some.inj h).symm⟩

theorem fIdx_member_none {o : Expr} {comp : Bool} {p : Expr} :
    extension.fIndexOffByOne (.member o comp p) = Option.none →
      extension.memberQual comp p = [] := by
  intro h
  rw [extension.fIndexOffByOne] at h
  unfold extension.memberIdxRw at h
  unfold extension.memberQual
  cases comp with
  | false => rfl
  | true =>
    cases hp : extension.isNumLit p with
    | none => rfl
    | some n =>
      rw [hp] at h
      exact Option.noConfusion h

theorem fIdx_call_some {c : Expr} {args : ExprList} {y : Expr} :
    extension.fIndexOffByOne (.call c args) = Option.some y →
      ∃ m args2, extension.getMemberPropertyName c = Option.some m ∧
        m ∈ extension.indexy ∧
        extension.incFirstNumArg args = Option.some args2 ∧ y = .call c args2 := by
  intro h
  rw [extension.fIndexOffByOne] at h
  cases hg : extension.getMemberPropertyName c with
  | none => rw [hg] at h; simp at h
  | some m =>
    rw [hg] at h
    simp only at h
    by_cases hm : m ∈ extension.indexy
    · rw [if_pos hm] at h
      cases hi : extension.incFirstNumArg args with
      | none => rw [hi] at h; simp at h
      | some args2 =>
        rw [hi] at h
        exact ⟨m, args2, rfl, hm, rfl, (Option.some.inj h).symm⟩
    · rw [if_neg hm] at h
      simp at h

theorem fIdx_call_none {c : Expr} {args : ExprList} :
    extension.fIndexOffByOne (.call c args) = Option.none →
      extension.callIndexVal c args = Option.none := by
  intro h
  have h2 := fIdx_call c args
  rw [h] at h2
  cases hcv : extension.callIndexVal c args with
  | none => rfl
  | some n => rw [hcv] at h2; simp at h2

theorem incFirst_spec (args : ExprList) : ∀ (args2 : ExprList),
    extension.incFirstNumArg args = Option.some args2 →
      ∃ n, extension.firstNumArg args = Option.some n ∧
        extension.firstNumArg args2 = Option.some (n + 1) ∧
        extension.qualEL args2 = extension.qualEL args := by
  cases args with
  | nil => intro args2 h; simp [extension.incFirstNumArg] at h
  | cons e es =>
    intro args2 h
    rw [extension.incFirstNumArg] at h
    cases hn : extension.isNumLit e with
    | some n =>
      rw [hn] at h
      simp only at h
      have h2 := (Option.some.inj h).symm
      subst h2
      refine ⟨n, ?_, ?_, ?_⟩
      · rw [extension.firstNumArg, hn]
      · rw [extension.firstNumArg]
        simp [extension.isNumLit, addOne_eq]
      · have he := isNumLit_eq hn
        subst he
        simp [extension.qualEL, extension.qualE]
    | none =>
      rw [hn] at h
      simp only at h
      cases hi : extension.incFirstNumArg es with
      | none => rw [hi] at h; simp at h
      | some r2 =>
        rw [hi] at h
        simp only at h
        have h2 := (Option.some.inj h).symm
        subst h2
        obtain ⟨n, hf, hf2, hq⟩ := incFirst_spec es r2 hi
        refine ⟨n, ?_, ?_, ?_⟩
        · rw [extension.firstNumArg, hn]
          exact hf
        · rw [extension.firstNumArg, hn]
          exact hf2
        · simp only [extension.qualEL]
          rw [hq]
  termination_by structural args

theorem isNumLit_rw (e : Expr) :
    extension.isNumLit (rwE extension.fIndexOffByOne e).1 = extension.isNumLit e := by
  cases e with
  | boolLit b => rfl
  | numLit n => rfl
  | strLit s => rfl
  | nullLit => rfl
  | ident n => rfl
  | unaryNot a =>
    rw [rwE]
    unfold visit
    cases hf : extension.fIndexOffByOne (.unaryNot a) with
    | some y => exact Option.noConfusion hf
    | none => rfl
  | binary op l r =>
    rw [rwE]
    unfold visit
    cases hf : extension.fIndexOffByOne (.binary op l r) with
    | some y => exact Option.noConfusion hf
    | none =>
      by_cases hl : (rwE extension.fIndexOffByOne l).2 = true
      · rw [if_pos hl]
        rfl
      · rw [if_neg hl]
        rfl
  | logical op l r =>
    rw [rwE]
    unfold visit
    cases hf : extension.fIndexOffByOne (.logical op l r) with
    | some y => exact Option.noConfusion hf
    | none =>
      by_cases hl : (rwE extension.fIndexOffByOne l).2 = true
      · rw [if_pos hl]
        rfl
      · rw [if_neg hl]
        rfl
  | cond t c a =>
    rw [rwE]
    unfold visit
    cases hf : extension.fIndexOffByOne (.cond t c a) with
    | some y => exact Option.noConfusion hf
    | none =>
      by_cases ht : (rwE extension.fIndexOffByOne t).2 = true
      · rw [if_pos ht]
        rfl
      · rw [if_neg ht]
        by_cases hc : (rwE extension.fIndexOffByOne c).2 = true
        · rw [if_pos hc]
          rfl
        · rw [if_neg hc]
          rfl
  | assign l r =>
    rw [rwE]
    unfold visit
    cases hf : extension.fIndexOffByOne (.assign l r) with
    | some y => exact Option.noConfusion hf
    | none =>
      by_cases hl : (rwE extension.fIndexOffByOne l).2 = true
      · rw [if_pos hl]
        rfl
      · rw [if_neg hl]
        rfl
  | paren e0 =>
    rw [rwE]
    unfold visit
    cases hf : extension.fIndexOffByOne (.paren e0) with
    | some y => exact Option.noConfusion hf
    | none => rfl
  | call c args =>
    rw [rwE]
    unfold visit
    cases hf : extension.fIndexOffByOne (.call c args) with
    | some y =>
      obtain ⟨m, args2, hg, hm, hinc, hy⟩ := fIdx_call_some hf
      subst hy
      rfl
    | none =>
      by_cases hc : (rwE extension.fIndexOffByOne c).2 = true
      · rw [if_pos hc]
        rfl
      · rw [if_neg hc]
        rfl
  | member o comp p =>
    rw [rwE]
    unfold visit
    cases hf : extension.fIndexOffByOne (.member o comp p) with
    | some y =>
      obtain ⟨n, hcomp, hp, hy⟩ := fIdx_member_some hf
      subst hy
      rfl
    | none =>
      by_cases ho : (rwE extension.fIndexOffByOne o).2 = true
      · rw [if_pos ho]
        rfl
      · rw [if_neg ho]
        rfl

theorem propName_rw (e : Expr) :
    extension.propName (rwE extension.fIndexOffByOne e).1 = extension.propName e := by
  cases e with
  | boolLit b => rfl
  | numLit n => rfl
  | strLit s => rfl
  | nullLit => rfl
  | ident n => rfl
  | unaryNot a =>
    rw [rwE]
    unfold visit
    cases hf : extension.fIndexOffByOne (.unaryNot a) with
    | some y => exact Option.noConfusion hf
    | none => rfl
  | binary op l r =>
    rw [rwE]
    unfold visit
    cases hf : extension.fIndexOffByOne (.binary op l r) with
    | some y => exact Option.noConfusion hf
    | none =>
      by_cases hl : (rwE extension.fIndexOffByOne l).2 = true
      · rw [if_pos hl]
        rfl
      · rw [if_neg hl]
        rfl
  | logical op l r =>
    rw [rwE]
    unfold visit
    cases hf : extension.fIndexOffByOne (.logical op l r) with
    | some y => exact Option.noConfusion hf
    | none =>
      by_cases hl : (rwE extension.fIndexOffByOne l).2 = true
      · rw [if_pos hl]
        rfl
      · rw [if_neg hl]
        rfl
  | cond t c a =>
    rw [rwE]
    unfold visit
    cases hf : extension.fIndexOffByOne (.cond t c a) with
    | some y => exact Option.noConfusion hf
    | none =>
      by_cases ht : (rwE extension.fIndexOffByOne t).2 = true
      · rw [if_pos ht]
        rfl
      · rw [if_neg ht]
        by_cases hc : (rwE extension.fIndexOffByOne c).2 = true
        · rw [if_pos hc]
          rfl
        · rw [if_neg hc]
          rfl
  | assign l r =>
    rw [rwE]
    unfold visit
    cases hf : extension.fIndexOffByOne (.assign l r) with
    | some y => exact Option.noConfusion hf
    | none =>
      by_cases hl : (rwE extension.fIndexOffByOne l).2 = true
      · rw [if_pos hl]
        rfl
      · rw [if_neg hl]
        rfl
  | paren e0 =>
    rw [rwE]
    unfold visit
    cases hf : extension.fIndexOffByOne (.paren e0) with
    | some y => exact Option.noConfusion hf
    | none => rfl
  | call c args =>
    rw [rwE]
    unfold visit
    cases hf : extension.fIndexOffByOne (.call c args) with
    | some y =>
      obtain ⟨m, args2, hg, hm, hinc, hy⟩ := fIdx_call_some hf
      subst hy
      rfl
    | none =>
      by_cases hc : (rwE extension.fIndexOffByOne c).2 = true
      · rw [if_pos hc]
        rfl
      · rw [if_neg hc]
        rfl
  | member o comp p =>
    rw [rwE]
    unfold visit
    cases hf : extension.fIndexOffByOne (.member o comp p) with
    | some y =>
      obtain ⟨n, hcomp, hp, hy⟩ := fIdx_member_some hf
      subst hy
      rfl
    | none =>
      by_cases ho : (rwE extension.fIndexOffByOne o).2 = true
      · rw [if_pos ho]
        rfl
      · rw [if_neg ho]
        rfl

theorem getMember_rw (c : Expr) :
    extension.getMemberPropertyName (rwE extension.fIndexOffByOne c).1 =
      extension.getMemberPropertyName c := by
  cases c with
  | boolLit b => rfl
  | numLit n => rfl
  | strLit s => rfl
  | nullLit => rfl
  | ident n => rfl
  | unaryNot a =>
    rw [rwE]
    unfold visit
    cases hf : extension.fIndexOffByOne (.unaryNot a) with
    | some y => exact Option.noConfusion hf
    | none => rfl
  | binary op l r =>
    rw [rwE]
    unfold visit
    cases hf : extension.fIndexOffByOne (.binary op l r) with
    | some y => exact Option.noConfusion hf
    | none =>
      by_cases hl : (rwE extension.fIndexOffByOne l).2 = true
      · rw [if_pos hl]
        rfl
      · rw [if_neg hl]
        rfl
  | logical op l r =>
    rw [rwE]
    unfold visit
    cases hf : extension.fIndexOffByOne (.logical op l r) with
    | some y => exact Option.noConfusion hf
    | none =>
      by_cases hl : (rwE extension.fIndexOffByOne l).2 = true
      · rw [if_pos hl]
        rfl
      · rw [if_neg hl]
        rfl
  | cond t c a =>
    rw [rwE]
    unfold visit
    cases hf : extension.fIndexOffByOne (.cond t c a) with
    | some y => exact Option.noConfusion hf
    | none =>
      by_cases ht : (rwE extension.fIndexOffByOne t).2 = true
      · rw [if_pos ht]
        rfl
      · rw [if_neg ht]
        by_cases hc : (rwE extension.fIndexOffByOne c).2 = true
        · rw [if_pos hc]
          rfl
        · rw [if_neg hc]
          rfl
  | assign l r =>
    rw [rwE]
    unfold visit
    cases hf : extension.fIndexOffByOne (.assign l r) with
    | some y => exact Option.noConfusion hf
    | none =>
      by_cases hl : (rwE extension.fIndexOffByOne l).2 = true
      · rw [if_pos hl]
        rfl
      · rw [if_neg hl]
        rfl
  | paren e0 =>
    rw [rwE]
    unfold visit
    cases hf : extension.fIndexOffByOne (.paren e0) with
    | some y => exact Option.noConfusion hf
    | none => rfl
  | call c args =>
    rw [rwE]
    unfold visit
    cases hf : extension.fIndexOffByOne (.call c args) with
    | some y =>
      obtain ⟨m, args2, hg, hm, hinc, hy⟩ := fIdx_call_some hf
      subst hy
      rfl
    | none =>
      by_cases hc : (rwE extension.fIndexOffByOne c).2 = true
      · rw [if_pos hc]
        rfl
      · rw [if_neg hc]
        rfl
  | member o comp p =>
    rw [rwE]
    unfold visit
    cases hf : extension.fIndexOffByOne (.member o comp p) with
    | some y =>
      obtain ⟨n, hcomp, hp, hy⟩ := fIdx_member_some hf
      subst hy
      subst hcomp
      rfl
    | none =>
      by_cases ho : (rwE extension.fIndexOffByOne o).2 = true
      · rw [if_pos ho]
        rfl
      · rw [if_neg ho]
        rw [extension.getMemberPropertyName, extension.getMemberPropertyName]
        cases comp with
        | true => rfl
        | false =>
          rw [if_neg (by simp), if_neg (by simp)]
          exact propName_rw p

theorem firstNumArg_rw (args : ExprList) :
    extension.firstNumArg (rwEL extension.fIndexOffByOne args).1 =
      extension.firstNumArg args := by
  cases args with
  | nil => rfl
  | cons e es =>
    rw [rwEL]
    simp only
    by_cases he : (rwE extension.fIndexOffByOne e).2 = true
    · rw [if_pos he]
      rw [extension.firstNumArg, extension.firstNumArg, isNumLit_rw e]
    · rw [if_neg he]
      rw [extension.firstNumArg, extension.firstNumArg]
      cases extension.isNumLit e with
      | some n => rfl
      | none =>
        simp only
        exact firstNumArg_rw es
  termination_by structural args

theorem callIndexVal_rwCallee (c : Expr) (args : ExprList) :
    extension.callIndexVal (rwE extension.fIndexOffByOne c).1 args =
      extension.callIndexVal c args := by
  rw [extension.callIndexVal, extension.callIndexVal, getMember_rw c]

theorem callIndexVal_rwArgs (c : Expr) (args : ExprList) :
    extension.callIndexVal c (rwEL extension.fIndexOffByOne args).1 =
      extension.callIndexVal c args := by
  rw [extension.callIndexVal, extension.callIndexVal]
  cases extension.getMemberPropertyName c with
  | none => rfl
  | some m =>
    simp only
    by_cases hm : m ∈ extension.indexy
    · rw [if_pos hm, if_pos hm, firstNumArg_rw args]
    · rw [if_neg hm, if_neg hm]

theorem memberQual_rw (comp : Bool) (p : Expr) :
    extension.memberQual comp (rwE extension.fIndexOffByOne p).1 =
      extension.memberQual comp p := by
  unfold extension.memberQual
  rw [isNumLit_rw p]

mutual
theorem rwE_qual (e : Expr) : ∀ e2 : Expr,
    rwE extension.fIndexOffByOne e = (e2, true) →
      ∃ n rest, extension.qualE e = n :: rest ∧
        extension.qualE e2 = (n + 1) :: rest := by
  cases e with
  | boolLit b => exact fun e2 h => Bool.noConfusion (congrArg Prod.snd h)
  | numLit n => exact fun e2 h => Bool.noConfusion (congrArg Prod.snd h)
  | strLit s => exact fun e2 h => Bool.noConfusion (congrArg Prod.snd h)
  | nullLit => exact fun e2 h => Bool.noConfusion (congrArg Prod.snd h)
  | ident n => exact fun e2 h => Bool.noConfusion (congrArg Prod.snd h)
  | unaryNot a =>
    intro e2 h
    rw [rwE] at h
    unfold visit at h
    cases hf : extension.fIndexOffByOne (.unaryNot a) with
    | some y => exact Option.noConfusion hf
    | none =>
      rw [hf] at h
      simp only at h
      have h1 := congrArg Prod.fst h
      have h2 := congrArg Prod.snd h
      simp only at h1 h2
      obtain ⟨n, rest, hq1, hq2⟩ := rwE_qual a _ (prodEta _ h2)
      refine ⟨n, rest, ?_, ?_⟩
      · rw [extension.qualE]
        exact hq1
      · rw [← h1, extension.qualE]
        exact hq2
  | binary op l r =>
    intro e2 h
    rw [rwE] at h
    unfold visit at h
    cases hf : extension.fIndexOffByOne (.binary op l r) with
    | some y => exact Option.noConfusion hf
    | none =>
      rw [hf] at h
      simp only at h
      by_cases hl : (rwE extension.fIndexOffByOne l).2 = true
      · rw [if_pos hl] at h
        have h1 := congrArg Prod.fst h
        simp only at h1
        obtain ⟨n, rest, hq1, hq2⟩ := rwE_qual l _ (prodEta _ hl)
        refine ⟨n, rest ++ extension.qualE r, ?_, ?_⟩
        · rw [extension.qualE, hq1]
          rfl
        · rw [← h1, extension.qualE, hq2]
          rfl
      · rw [if_neg hl] at h
        have h1 := congrArg Prod.fst h
        have h2 := congrArg Prod.snd h
        simp only at h1 h2
        have hlnil := qualE_nil l (by simpa using hl)
        obtain ⟨n, rest, hq1, hq2⟩ := rwE_qual r _ (prodEta _ h2)
        refine ⟨n, rest, ?_, ?_⟩
        · rw [extension.qualE, hlnil, hq1]
          rfl
        · rw [← h1, extension.qualE, hlnil, hq2]
          rfl
  | logical op l r =>
    intro e2 h
    rw [rwE] at h
    unfold visit at h
    cases hf : extension.fIndexOffByOne (.logical op l r) with
    | some y => exact Option.noConfusion hf
    | none =>
      rw [hf] at h
      simp only at h
      by_cases hl : (rwE extension.fIndexOffByOne l).2 = true
      · rw [if_pos hl] at h
        have h1 := congrArg Prod.fst h
        simp only at h1
        obtain ⟨n, rest, hq1, hq2⟩ := rwE_qual l _ (prodEta _ hl)
        refine ⟨n, rest ++ extension.qualE r, ?_, ?_⟩
        · rw [extension.qualE, hq1]
          rfl
        · rw [← h1, extension.qualE, hq2]
          rfl
      · rw [if_neg hl] at h
        have h1 := congrArg Prod.fst h
        have h2 := congrArg Prod.snd h
        simp only at h1 h2
        have hlnil := qualE_nil l (by simpa using hl)
        obtain ⟨n, rest, hq1, hq2⟩ := rwE_qual r _ (prodEta _ h2)
        refine ⟨n, rest, ?_, ?_⟩
        · rw [extension.qualE, hlnil, hq1]
          rfl
        · rw [← h1, extension.qualE, hlnil, hq2]
          rfl
  | cond t c a =>
    intro e2 h
    rw [rwE] at h
    unfold visit at h
    cases hf : extension.fIndexOffByOne (.cond t c a) with
    | some y => exact Option.noConfusion hf
    | none =>
      rw [hf] at h
      simp only at h
      by_cases ht : (rwE extension.fIndexOffByOne t).2 = true
      · rw [if_pos ht] at h
        have h1 := congrArg Prod.fst h
        simp only at h1
        obtain ⟨n, rest, hq1, hq2⟩ := rwE_qual t _ (prodEta _ ht)
        refine ⟨n, (rest ++ extension.qualE c) ++ extension.qualE a, ?_, ?_⟩
        · rw [extension.qualE, hq1]
          rfl
        · rw [← h1, extension.qualE, hq2]
          rfl
      · rw [if_neg ht] at h
        have htnil := qualE_nil t (by simpa using ht)
        by_cases hc : (rwE extension.fIndexOffByOne c).2 = true
        · rw [if_pos hc] at h
          have h1 := congrArg Prod.fst h
          simp only at h1
          obtain ⟨n, rest, hq1, hq2⟩ := rwE_qual c _ (prodEta _ hc)
          refine ⟨n, rest ++ extension.qualE a, ?_, ?_⟩
          · rw [extension.qualE, htnil, hq1]
            rfl
          · rw [← h1, extension.qualE, htnil, hq2]
            rfl
        · rw [if_neg hc] at h
          have hcnil := qualE_nil c (by simpa using hc)
          have h1 := congrArg Prod.fst h
          have h2 := congrArg Prod.snd h
          simp only at h1 h2
          obtain ⟨n, rest, hq1, hq2⟩ := rwE_qual a _ (prodEta _ h2)
          refine ⟨n, rest, ?_, ?_⟩
          · rw [extension.qualE, htnil, hcnil, hq1]
            rfl
          · rw [← h1, extension.qualE, htnil, hcnil, hq2]
            rfl
  | assign l r =>
    intro e2 h
    rw [rwE] at h
    unfold visit at h
    cases hf : extension.fIndexOffByOne (.assign l r) with
    | some y => exact Option.noConfusion hf
    | none =>
      rw [hf] at h
      simp only at h
      by_cases hl : (rwE extension.fIndexOffByOne l).2 = true
      · rw [if_pos hl] at h
        have h1 := congrArg Prod.fst h
        simp only at h1
        obtain ⟨n, rest, hq1, hq2⟩ := rwE_qual l _ (prodEta _ hl)
        refine ⟨n, rest ++ extension.qualE r, ?_, ?_⟩
        · rw [extension.qualE, hq1]
          rfl
        · rw [← h1, extension.qualE, hq2]
          rfl
      · rw [if_neg hl] at h
        have h1 := congrArg Prod.fst h
        have h2 := congrArg Prod.snd h
        simp only at h1 h2
        have hlnil := qualE_nil l (by simpa using hl)
        obtain ⟨n, rest, hq1, hq2⟩ := rwE_qual r _ (prodEta _ h2)
        refine ⟨n, rest, ?_, ?_⟩
        · rw [extension.qualE, hlnil, hq1]
          rfl
        · rw [← h1, extension.qualE, hlnil, hq2]
          rfl
  | paren e0 =>
    intro e2 h
    rw [rwE] at h
    unfold visit at h
    cases hf : extension.fIndexOffByOne (.paren e0) with
    | some y => exact Option.noConfusion hf
    | none =>
      rw [hf] at h
      simp only at h
      have h1 := congrArg Prod.fst h
      have h2 := congrArg Prod.snd h
      simp only at h1 h2
      obtain ⟨n, rest, hq1, hq2⟩ := rwE_qual e0 _ (prodEta _ h2)
      refine ⟨n, rest, ?_, ?_⟩
      · rw [extension.qualE]
        exact hq1
      · rw [← h1, extension.qualE]
        exact hq2
  | call c args =>
    intro e2 h
    rw [rwE] at h
    unfold visit at h
    cases hf : extension.fIndexOffByOne (.call c args) with
    | some y =>
      rw [hf] at h
      have h1 := congrArg Prod.fst h
      simp only at h1
      obtain ⟨m, args2, hg, hm, hinc, hy⟩ := fIdx_call_some hf
      obtain ⟨n, hfirst, hfirst2, hqeq⟩ := incFirst_spec args args2 hinc
      subst hy
      have hcv : extension.callIndexVal c args = Option.some n := by
        rw [extension.callIndexVal, hg]
        simp only
        rw [if_pos hm]
        exact hfirst
      have hcv2 : extension.callIndexVal c args2 = Option.some (n + 1) := by
        rw [extension.callIndexVal, hg]
        simp only
        rw [if_pos hm]
        exact hfirst2
      refine ⟨n, extension.qualE c ++ extension.qualEL args, ?_, ?_⟩
      · rw [extension.qualE, hcv]
        rfl
      · rw [← h1, extension.qualE, hcv2, hqeq]
        rfl
    | none =>
      rw [hf] at h
      simp only at h
      have hcv := fIdx_call_none hf
      by_cases hc : (rwE extension.fIndexOffByOne c).2 = true
      · rw [if_pos hc] at h
        have h1 := congrArg Prod.fst h
        simp only at h1
        obtain ⟨n, rest, hq1, hq2⟩ := rwE_qual c _ (prodEta _ hc)
        refine ⟨n, rest ++ extension.qualEL args, ?_, ?_⟩
        · rw [extension.qualE, hcv, hq1]
          rfl
        · rw [← h1, extension.qualE, callIndexVal_rwCallee c args, hcv, hq2]
          rfl
      · rw [if_neg hc] at h
        have h1 := congrArg Prod.fst h
        have h2 := congrArg Prod.snd h
        simp only at h1 h2
        have hcnil := qualE_nil c (by simpa using hc)
        obtain ⟨n, rest, hq1, hq2⟩ := rwEL_qual args _ (prodEta _ h2)
        refine ⟨n, rest, ?_, ?_⟩
        · rw [extension.qualE, hcv, hcnil, hq1]
          rfl
        · rw [← h1, extension.qualE, callIndexVal_rwArgs c args, hcv, hcnil, hq2]
          rfl
  | member o comp p =>
    intro e2 h
    rw [rwE] at h
    unfold visit at h
    cases hf : extension.fIndexOffByOne (.member o comp p) with
    | some y =>
      rw [hf] at h
      have h1 := congrArg Prod.fst h
      simp only at h1
      obtain ⟨n, hcomp, hp, hy⟩ := fIdx_member_some hf
      subst hy
      subst hcomp
      have hpn := isNumLit_eq hp
      subst hpn
      refine ⟨n, extension.qualE o, ?_, ?_⟩
      · rw [extension.qualE]
        unfold extension.memberQual
        rw [hp]
        simp [extension.qualE]
      · rw [← h1, extension.qualE]
        unfold extension.memberQual
        simp [extension.isNumLit, extension.qualE, addOne_eq]
    | none =>
      rw [hf] at h
      simp only at h
      have hlocal := fIdx_member_none hf
      by_cases ho : (rwE extension.fIndexOffByOne o).2 = true
      · rw [if_pos ho] at h
        have h1 := congrArg Prod.fst h
        simp only at h1
        obtain ⟨n, rest, hq1, hq2⟩ := rwE_qual o _ (prodEta _ ho)
        refine ⟨n, rest ++ extension.qualE p, ?_, ?_⟩
        · rw [extension.qualE, hlocal, hq1]
          rfl
        · rw [← h1, extension.qualE, hlocal, hq2]
          rfl
      · rw [if_neg ho] at h
        have h1 := congrArg Prod.fst h
        have h2 := congrArg Prod.snd h
        simp only at h1 h2
        have honil := qualE_nil o (by simpa using ho)
        obtain ⟨n, rest, hq1, hq2⟩ := rwE_qual p _ (prodEta _ h2)
        refine ⟨n, rest, ?_, ?_⟩
        · rw [extension.qualE, hlocal, honil, hq1]
          rfl
        · rw [← h1, extension.qualE, memberQual_rw comp p, hlocal, honil, hq2]
          rfl
  termination_by structural e

theorem rwEL_qual (l : ExprList) : ∀ l2 : ExprList,
    rwEL extension.fIndexOffByOne l = (l2, true) →
      ∃ n rest, extension.qualEL l = n :: rest ∧
        extension.qualEL l2 = (n + 1) :: rest := by
  cases l with
  | nil => exact fun l2 h => Bool.noConfusion (congrArg Prod.snd h)
  | cons e es =>
    intro l2 h
    rw [rwEL] at h
    simp only at h
    by_cases he : (rwE extension.fIndexOffByOne e).2 = true
    · rw [if_pos he] at h
      have h1 := congrArg Prod.fst h
      simp only at h1
      obtain ⟨n, rest, hq1, hq2⟩ := rwE_qual e _ (prodEta _ he)
      refine ⟨n, rest ++ extension.qualEL es, ?_, ?_⟩
      · rw [extension.qualEL, hq1]
        rfl
      · rw [← h1, extension.qualEL, hq2]
        rfl
    · rw [if_neg he] at h
      have h1 := congrArg Prod.fst h
      have h2 := congrArg Prod.snd h
      simp only at h1 h2
      have henil := qualE_nil e (by simpa using he)
      obtain ⟨n, rest, hq1, hq2⟩ := rwEL_qual es _ (prodEta _ h2)
      refine ⟨n, rest, ?_, ?_⟩
      · rw [extension.qualEL, henil, hq1]
        rfl
      · rw [← h1, extension.qualEL, henil, hq2]
        rfl
  termination_by structural l
end

theorem rwOptE_qual (o : Option Expr) : ∀ o2 : Option Expr,
    rwOptE extension.fIndexOffByOne o = (o2, true) →
      ∃ n rest, extension.qualOptE o = n :: rest ∧
        extension.qualOptE o2 = (n + 1) :: rest := by
  cases o with
  | none => exact fun o2 h => Bool.noConfusion (congrArg Prod.snd h)
  | some e =>
    intro o2 h
    rw [rwOptE] at h
    have h1 := congrArg Prod.fst h
    have h2 := congrArg Prod.snd h
    simp only at h1 h2
    obtain ⟨n, rest, hq1, hq2⟩ := rwE_qual e _ (prodEta _ h2)
    refine ⟨n, rest, ?_, ?_⟩
    · rw [extension.qualOptE]
      exact hq1
    · rw [← h1, extension.qualOptE]
      exact hq2

theorem rwDecls_qual (ds : List (List Char × Option Expr)) :
    ∀ ds2, rwDecls extension.fIndexOffByOne ds = (ds2, true) →
      ∃ n rest, extension.qualDecls ds = n :: rest ∧
        extension.qualDecls ds2 = (n + 1) :: rest := by
  induction ds with
  | nil => exact fun ds2 h => Bool.noConfusion (congrArg Prod.snd h)
  | cons d ds ih =>
    obtain ⟨nm, i⟩ := d
    intro ds2 h
    rw [rwDecls] at h
    simp only at h
    by_cases hi : (rwOptE extension.fIndexOffByOne i).2 = true
    · rw [if_pos hi] at h
      have h1 := congrArg Prod.fst h
      simp only at h1
      obtain ⟨n, rest, hq1, hq2⟩ := rwOptE_qual i _ (prodEta _ hi)
      refine ⟨n, rest ++ extension.qualDecls ds, ?_, ?_⟩
      · rw [extension.qualDecls, hq1]
        rfl
      · rw [← h1, extension.qualDecls, hq2]
        rfl
    · rw [if_neg hi] at h
      have h1 := congrArg Prod.fst h
      have h2 := congrArg Prod.snd h
      simp only at h1 h2
      have hinil := qualOptE_nil i (by simpa using hi)
      obtain ⟨n, rest, hq1, hq2⟩ := ih _ (prodEta _ h2)
      refine ⟨n, rest, ?_, ?_⟩
      · rw [extension.qualDecls, hinil, hq1]
        rfl
      · rw [← h1, extension.qualDecls, hinil, hq2]
        rfl

mutual
theorem rwS_qual (s : Stmt) : ∀ s2 : Stmt,
    rwS injector.noStmtMatch extension.fIndexOffByOne s = (s2, true) →
      ∃ n rest, extension.qualS s = n :: rest ∧
        extension.qualS s2 = (n + 1) :: rest := by
  cases s with
  | exprStmt e =>
    intro s2 h
    rw [rwS] at h
    unfold visit at h
    simp only [injector.noStmtMatch] at h
    have h1 := congrArg Prod.fst h
    have h2 := congrArg Prod.snd h
    simp only at h1 h2
    obtain ⟨n, rest, hq1, hq2⟩ := rwE_qual e _ (prodEta _ h2)
    refine ⟨n, rest, ?_, ?_⟩
    · rw [extension.qualS]
      exact hq1
    · rw [← h1, extension.qualS]
      exact hq2
  | varDecl ds =>
    intro s2 h
    rw [rwS] at h
    unfold visit at h
    simp only [injector.noStmtMatch] at h
    have h1 := congrArg Prod.fst h
    have h2 := congrArg Prod.snd h
    simp only at h1 h2
    obtain ⟨n, rest, hq1, hq2⟩ := rwDecls_qual ds _ (prodEta _ h2)
    refine ⟨n, rest, ?_, ?_⟩
    · rw [extension.qualS]
      exact hq1
    · rw [← h1, extension.qualS]
      exact hq2
  | funcDecl nm ps b =>
    intro s2 h
    rw [rwS] at h
    unfold visit at h
    simp only [injector.noStmtMatch] at h
    have h1 := congrArg Prod.fst h
    have h2 := congrArg Prod.snd h
    simp only at h1 h2
    obtain ⟨n, rest, hq1, hq2⟩ := rwSL_qual b _ (prodEta _ h2)
    refine ⟨n, rest, ?_, ?_⟩
    · rw [extension.qualS]
      exact hq1
    · rw [← h1, extension.qualS]
      exact hq2
  | forStmt i t u b =>
    intro s2 h
    rw [rwS] at h
    unfold visit at h
    simp only [injector.noStmtMatch] at h
    by_cases hi : (rwOS injector.noStmtMatch extension.fIndexOffByOne i).2 = true
    · rw [if_pos hi] at h
      have h1 := congrArg Prod.fst h
      simp only at h1
      obtain ⟨n, rest, hq1, hq2⟩ := rwOS_qual i _ (prodEta _ hi)
      refine ⟨n, ((rest ++ extension.qualOptE t) ++ extension.qualOptE u) ++
        extension.qualS b, ?_, ?_⟩
      · rw [extension.qualS, hq1]
        rfl
      · rw [← h1, extension.qualS, hq2]
        rfl
    · rw [if_neg hi] at h
      have hinil := qualOS_nil i (by simpa using hi)
      by_cases ht : (rwOptE extension.fIndexOffByOne t).2 = true
      · rw [if_pos ht] at h
        have h1 := congrArg Prod.fst h
        simp only at h1
        obtain ⟨n, rest, hq1, hq2⟩ := rwOptE_qual t _ (prodEta _ ht)
        refine ⟨n, (rest ++ extension.qualOptE u) ++ extension.qualS b, ?_, ?_⟩
        · rw [extension.qualS, hinil, hq1]
          rfl
        · rw [← h1, extension.qualS, hinil, hq2]
          rfl
      · rw [if_neg ht] at h
        have htnil := qualOptE_nil t (by simpa using ht)
        by_cases hu : (rwOptE extension.fIndexOffByOne u).2 = true
        · rw [if_pos hu] at h
          have h1 := congrArg Prod.fst h
          simp only at h1
          obtain ⟨n, rest, hq1, hq2⟩ := rwOptE_qual u _ (prodEta _ hu)
          refine ⟨n, rest ++ extension.qualS b, ?_, ?_⟩
          · rw [extension.qualS, hinil, htnil, hq1]
            rfl
          · rw [← h1, extension.qualS, hinil, htnil, hq2]
            rfl
        · rw [if_neg hu] at h
          have hunil := qualOptE_nil u (by simpa using hu)
          have h1 := congrArg Prod.fst h
          have h2 := congrArg Prod.snd h
          simp only at h1 h2
          obtain ⟨n, rest, hq1, hq2⟩ := rwS_qual b _ (prodEta _ h2)
          refine ⟨n, rest, ?_, ?_⟩
          · rw [extension.qualS, hinil, htnil, hunil, hq1]
            rfl
          · rw [← h1, extension.qualS, hinil, htnil, hunil, hq2]
            rfl
  | whileStmt t b =>
    intro s2 h
    rw [rwS] at h
    unfold visit at h
    simp only [injector.noStmtMatch] at h
    by_cases ht : (rwE extension.fIndexOffByOne t).2 = true
    · rw [if_pos ht] at h
      have h1 := congrArg Prod.fst h
      simp only at h1
      obtain ⟨n, rest, hq1, hq2⟩ := rwE_qual t _ (prodEta _ ht)
      refine ⟨n, rest ++ extension.qualS b, ?_, ?_⟩
      · rw [extension.qualS, hq1]
        rfl
      · rw [← h1, extension.qualS, hq2]
        rfl
    · rw [if_neg ht] at h
      have htnil := qualE_nil t (by simpa using ht)
      have h1 := congrArg Prod.fst h
      have h2 := congrArg Prod.snd h
      simp only at h1 h2
      obtain ⟨n, rest, hq1, hq2⟩ := rwS_qual b _ (prodEta _ h2)
      refine ⟨n, rest, ?_, ?_⟩
      · rw [extension.qualS, htnil, hq1]
        rfl
      · rw [← h1, extension.qualS, htnil, hq2]
        rfl
  | doWhileStmt t b =>
    intro s2 h
    rw [rwS] at h
    unfold visit at h
    simp only [injector.noStmtMatch] at h
    by_cases ht : (rwE extension.fIndexOffByOne t).2 = true
    · rw [if_pos ht] at h
      have h1 := congrArg Prod.fst h
      simp only at h1
      obtain ⟨n, rest, hq1, hq2⟩ := rwE_qual t _ (prodEta _ ht)
      refine ⟨n, rest ++ extension.qualS b, ?_, ?_⟩
      · rw [extension.qualS, hq1]
        rfl
      · rw [← h1, extension.qualS, hq2]
        rfl
    · rw [if_neg ht] at h
      have htnil := qualE_nil t (by simpa using ht)
      have h1 := congrArg Prod.fst h
      have h2 := congrArg Prod.snd h
      simp only at h1 h2
      obtain ⟨n, rest, hq1, hq2⟩ := rwS_qual b _ (prodEta _ h2)
      refine ⟨n, rest, ?_, ?_⟩
      · rw [extension.qualS, htnil, hq1]
        rfl
      · rw [← h1, extension.qualS, htnil, hq2]
        rfl
  | block b =>
    intro s2 h
    rw [rwS] at h
    unfold visit at h
    simp only [injector.noStmtMatch] at h
    have h1 := congrArg Prod.fst h
    have h2 := congrArg Prod.snd h
    simp only at h1 h2
    obtain ⟨n, rest, hq1, hq2⟩ := rwSL_qual b _ (prodEta _ h2)
    refine ⟨n, rest, ?_, ?_⟩
    · rw [extension.qualS]
      exact hq1
    · rw [← h1, extension.qualS]
      exact hq2
  | ret a =>
    intro s2 h
    rw [rwS] at h
    unfold visit at h
    simp only [injector.noStmtMatch] at h
    have h1 := congrArg Prod.fst h
    have h2 := congrArg Prod.snd h
    simp only at h1 h2
    obtain ⟨n, rest, hq1, hq2⟩ := rwOptE_qual a _ (prodEta _ h2)
    refine ⟨n, rest, ?_, ?_⟩
    · rw [extension.qualS]
      exact hq1
    · rw [← h1, extension.qualS]
      exact hq2
  termination_by structural s

theorem rwOS_qual (o : OptStmt) : ∀ o2 : OptStmt,
    rwOS injector.noStmtMatch extension.fIndexOffByOne o = (o2, true) →
      ∃ n rest, extension.qualOS o = n :: rest ∧
        extension.qualOS o2 = (n + 1) :: rest := by
  cases o with
  | none => exact fun o2 h => Bool.noConfusion (congrArg Prod.snd h)
  | some s =>
    intro o2 h
    rw [rwOS] at h
    have h1 := congrArg Prod.fst h
    have h2 := congrArg Prod.snd h
    simp only at h1 h2
    obtain ⟨n, rest, hq1, hq2⟩ := rwS_qual s _ (prodEta _ h2)
    refine ⟨n, rest, ?_, ?_⟩
    · rw [extension.qualOS]
      exact hq1
    · rw [← h1, extension.qualOS]
      exact hq2
  termination_by structural o

theorem rwSL_qual (l : StmtList) : ∀ l2 : StmtList,
    rwSL injector.noStmtMatch extension.fIndexOffByOne l = (l2, true) →
      ∃ n rest, extension.qualSL l = n :: rest ∧
        extension.qualSL l2 = (n + 1) :: rest := by
  cases l with
  | nil => exact fun l2 h => Bool.noConfusion (congrArg Prod.snd h)
  | cons s ss =>
    intro l2 h
    rw [rwSL] at h
    simp only at h
    by_cases hs : (rwS injector.noStmtMatch extension.fIndexOffByOne s).2 = true
    · rw [if_pos hs] at h
      have h1 := congrArg Prod.fst h
      simp only at h1
      obtain ⟨n, rest, hq1, hq2⟩ := rwS_qual s _ (prodEta _ hs)
      refine ⟨n, rest ++ extension.qualSL ss, ?_, ?_⟩
      · rw [extension.qualSL, hq1]
        rfl
      · rw [← h1, extension.qualSL, hq2]
        rfl
    · rw [if_neg hs] at h
      have h1 := congrArg Prod.fst h
      have h2 := congrArg Prod.snd h
      simp only at h1 h2
      have hsnil := qualS_nil s (by simpa using hs)
      obtain ⟨n, rest, hq1, hq2⟩ := rwSL_qual ss _ (prodEta _ h2)
      refine ⟨n, rest, ?_, ?_⟩
      · rw [extension.qualSL, hsnil, hq1]
        rfl
      · rw [← h1, extension.qualSL, hsnil, hq2]
        rfl
  termination_by structural l
end

/-- C6: the index off-by-one rule targets exactly the qualifying index
literals (numeric literals in computed member positions or as the first
numeric argument of an index-flavoured call such as `at`, `charAt`,
`slice`, `substring`, `substr`): the increment helper adds one to any
integer, the rule reports a mutation iff the tree has at least one
qualifying literal, and a successful run replaces the first qualifying
literal `n` by `n + 1`, leaving every other qualifying literal unchanged. -/
theorem claim_C6 :
    (∀ n : Int, extension.addOneToIndexLiteral n = n + 1) ∧
    (∀ t : Tree, (extension.applyIndexOffByOneBug t).2 = true ↔
      extension.qualSL t ≠ []) ∧
    (∀ t t2 : Tree, extension.applyIndexOffByOneBug t = (t2, true) →
      ∃ n rest, extension.qualSL t = n :: rest ∧
        extension.qualSL t2 = (n + 1) :: rest) := by
  refine ⟨addOne_eq, ?_, ?_⟩
  · intro t
    have hsnd : (extension.applyIndexOffByOneBug t).2 =
        !(extension.qualSL t).isEmpty := by
      show (rwSL injector.noStmtMatch extension.fIndexOffByOne t).2 = _
      rw [rwSL_snd]
      exact anySL_qual t
    rw [hsnd]
    cases extension.qualSL t <;> simp
  · intro t t2 h
    exact rwSL_qual t t2 h

/-- Witness for C6: on `arr[3];` the rule fires and produces `arr[4];`,
the single qualifying literal `3` becoming `4`. -/
theorem claim_C6_witness :
    extension.addOneToIndexLiteral 3 = 3 + 1 ∧
    (∃ n rest,
      extension.qualSL (.cons (.exprStmt
        (.member (.ident (String.toList "arr")) true (.numLit 3))) .nil) = n :: rest ∧
      extension.qualSL (.cons (.exprStmt
        (.member (.ident (String.toList "arr")) true (.numLit 4))) .nil) =
          (n + 1) :: rest) := by
  constructor
  · exact claim_C6.1 3
  · exact claim_C6.2.2 _ _ (by decide)

/-! ## The extension-host text layer

The remaining functions operate on plain text: the changed-line-range diff
extractor and snippet slicer used by the history recorder, and the
formatting normalization applied to regenerated code before it replaces
the editor contents.  Strings are modelled as `List Char`. -/

namespace exthost

/-- Length of the common prefix of two strings, as computed by the forward
scan `while (start < before.length && start < after.length &&
before[start] === after[start]) start++`. -/
def commonPrefixLen : List Char → List Char → Nat
  | [], _ => 0
  | _ :: _, [] => 0
  | c :: cs, d :: ds => if c = d then commonPrefixLen cs ds + 1 else 0

/-- Character at a (possibly negative) index, JS-style: out-of-range reads
give `undefined`, modelled as `none`. -/
def charAt (s : List Char) (i : Int) : Option Char :=
  if i < 0 then Option.none else s.get? i.toNat

/-- The backward scan of `getChangedLineRange`: starting from the last
indices of both strings, step both indices down while they are still at or
beyond the common-prefix length and the characters agree; returns the
final `endBefore`.  The counter is an upper bound on the number of loop
iterations (the scan stops by itself before the counter can run out). -/
def backScan (b a : List Char) (start : Nat) : Nat → Int → Int → Int
  | 0, eb, _ => eb
  | fuel + 1, eb, ea =>
    if (start : Int) ≤ eb ∧ (start : Int) ≤ ea ∧ charAt b eb = charAt a ea then
      backScan b a start fuel (eb - 1) (ea - 1)
    else eb

/-- JS `text.split("\n")`: the list of newline-separated segments; the
result always has one more segment than there are newline characters. -/
def splitNL : List Char → List (List Char)
  | [] => [[]]
  | c :: cs =>
    if c = '\n' then [] :: splitNL cs
    else
      match splitNL cs with
      | [] => [[c]]
      | l :: ls => (c :: l) :: ls

/-- Number of lines of a text, in the sense of `split("\n").length`. -/
def numLines (s : List Char) : Nat := (splitNL s).length

/-- JS `lines.join("\n")`. -/
def joinNL (ls : List (List Char)) : List Char := List.intercalate ['\n'] ls

/-- The changed-line-range diff extractor `getChangedLineRange`: `null`
when the strings are equal, otherwise the 1-indexed inclusive line range
of the changed region of `before`, computed from the forward and backward
scans. -/
def getChangedLineRange (before after : List Char) : Option (Int × Int) :=
  if before = after then Option.none
  else
    Option.some
      ((numLines (before.take (commonPrefixLen before after)) : Int),
       (numLines (before.take
         (backScan before after (commonPrefixLen before after)
            (before.length + 1) ((before.length : Int) - 1)
            ((after.length : Int) - 1) + 1).toNat) : Int))

/-- JS `Array.prototype.slice(s, e)`: negative bounds count from the end,
and both bounds are clamped into `[0, length]`. -/
def jsSlice (l : List (List Char)) (s e : Int) : List (List Char) :=
  (l.take (if e < 0 then max ((l.length : Int) + e) 0
           else min e (l.length : Int)).toNat).drop
    (if s < 0 then max ((l.length : Int) + s) 0
     else min s (l.length : Int)).toNat

/-- The snippet slicer `getLineSlice`: split into lines, clamp the
1-indexed bounds, and rejoin the selected lines. -/
def getLineSlice (text : List Char) (startLine endLine : Int) : List Char :=
  joinNL (jsSlice (splitNL text) (max 0 (startLine - 1))
    (min ((splitNL text).length : Int) endLine))

/-- The inclusive 1-indexed line-range slice as the specification words
it: lines `s` through `e` of the text, joined back with newlines. -/
def lineRangeSlice (text : List Char) (s e : Int) : List Char :=
  joinNL (((splitNL text).drop (s - 1).toNat).take (e - s + 1).toNat)

/-- The newline string of an end-of-line convention (`true` = CRLF). -/
def eolStr (crlf : Bool) : List Char := if crlf then ['\r', '\n'] else ['\n']

/-- JS `text.replace(/\r?\n/g, nl)`: every line break — a newline with an
optional immediately preceding carriage return — is replaced by `nl`;
carriage returns not followed by a newline are left alone. -/
def replaceEolAll (nl : List Char) : List Char → List Char
  | [] => []
  | [c] => if c = '\n' then nl else [c]
  | c :: d :: rest =>
    if c = '\r' then
      if d = '\n' then nl ++ replaceEolAll nl rest
      else '\r' :: replaceEolAll nl (d :: rest)
    else if c = '\n' then nl ++ replaceEolAll nl (d :: rest)
    else c :: replaceEolAll nl (d :: rest)
  termination_by structural s => s

/-- JS `/\r?\n$/.test(s)`: the string ends with a newline character. -/
def endsWithNewline (s : List Char) : Bool := s.reverse.head? == Option.some '\n'

/-- JS `s.replace(/\r?\n$/, "")`: strip one trailing newline together
with an immediately preceding carriage return, if present. -/
def stripTrailingNewline (s : List Char) : List Char :=
  match s.reverse with
  | [] => s
  | c :: rest =>
    if c = '\n' then
      match rest with
      | [] => []
      | d :: rest2 => if d = '\r' then rest2.reverse else rest.reverse
    else s

/-- The normalization step `normalizeAndPreserveFormatting`: rewrite every
line break of the regenerated code to the buffer convention, then patch
the trailing newline to follow the original text. -/
def normalizeAndPreserveFormatting (newCode originalCode : List Char)
    (crlf : Bool) : List Char :=
  if endsWithNewline originalCode &&
      !endsWithNewline (replaceEolAll (eolStr crlf) newCode) then
    replaceEolAll (eolStr crlf) newCode ++ eolStr crlf
  else if !endsWithNewline originalCode &&
      endsWithNewline (replaceEolAll (eolStr crlf) newCode) then
    stripTrailingNewline (replaceEolAll (eolStr crlf) newCode)
  else replaceEolAll (eolStr crlf) newCode

/-- Every newline of the string is immediately preceded by a carriage
return, scanning with the previous character at hand. -/
def crlfOkFrom (prev : Char) : List Char → Bool
  | [] => true
  | c :: cs => ((!(c == '\n')) || (prev == '\r')) && crlfOkFrom c cs

/-- Every line break of the string is a CRLF. -/
def crlfOk (s : List Char) : Bool := crlfOkFrom 'a' s

/-- No newline of the string is immediately preceded by a carriage
return, scanning with the previous character at hand. -/
def lfOkFrom (prev : Char) : List Char → Bool
  | [] => true
  | c :: cs => (!((prev == '\r') && (c == '\n'))) && lfOkFrom c cs

/-- Every line break of the string is a bare LF (no CRLF occurs). -/
def lfOk (s : List Char) : Bool := lfOkFrom 'a' s

/-- Every line break of the string matches the given convention. -/
def eolOk (crlf : Bool) (s : List Char) : Bool :=
  if crlf then crlfOk s else lfOk s

/-- Every carriage return of the string is immediately followed by a
newline (the string has no lone `\r`). -/
def noLoneCR : List Char → Bool
  | [] => true
  | [c] => !(c == '\r')
  | c :: d :: rest => ((!(c == '\r')) || (d == '\n')) && noLoneCR (d :: rest)
  termination_by structural s => s

end exthost

theorem countNl_cons (c : Char) (l : List Char) :
    (c :: l).count '\n' = l.count '\n' + if c = '\n' then 1 else 0 := by
  simp [List.count_cons]

theorem splitNL_ne_nil (s : List Char) : exthost.splitNL s ≠ [] := by
  cases s with
  | nil => simp [exthost.splitNL]
  | cons c cs =>
    rw [exthost.splitNL]
    by_cases hc : c = '\n'
    · rw [if_pos hc]
      simp
    · rw [if_neg hc]
      cases exthost.splitNL cs <;> simp

theorem splitNL_length (s : List Char) :
    (exthost.splitNL s).length = s.count '\n' + 1 := by
  induction s with
  | nil => rfl
  | cons c cs ih =>
    rw [exthost.splitNL, countNl_cons]
    by_cases hc : c = '\n'
    · rw [if_pos hc, if_pos hc]
      simp only [List.length_cons]
      omega
    · rw [if_neg hc, if_neg hc]
      cases h : exthost.splitNL cs with
      | nil => exact absurd h (splitNL_ne_nil cs)
      | cons l ls =>
        rw [h] at ih
        simp only [List.length_cons] at ih ⊢
        omega

theorem numLines_take_mono (l : List Char) (m k : Nat) (h : m ≤ k) :
    exthost.numLines (l.take m) ≤ exthost.numLines (l.take k) := by
  unfold exthost.numLines
  rw [splitNL_length, splitNL_length]
  have h1 : l.take m = (l.take k).take m := by
    rw [List.take_take, Nat.min_eq_left h]
  rw [h1]
  have h2 := List.Sublist.count_le (List.take_sublist m (l.take k)) '\n'
  omega

theorem commonPrefixLen_le (b a : List Char) :
    exthost.commonPrefixLen b a ≤ b.length := by
  induction b generalizing a with
  | nil => simp [exthost.commonPrefixLen]
  | cons c cs ih =>
    cases a with
    | nil => simp [exthost.commonPrefixLen]
    | cons d ds =>
      rw [exthost.commonPrefixLen]
      by_cases h : c = d
      · rw [if_pos h]
        simp only [List.length_cons]
        exact Nat.succ_le_succ (ih ds)
      · rw [if_neg h]
        simp

theorem backScan_ge (b a : List Char) (start : Nat) (fuel : Nat) :
    ∀ eb ea : Int, (start : Int) - 1 ≤ eb →
      (start : Int) - 1 ≤ exthost.backScan b a start fuel eb ea := by
  induction fuel with
  | zero =>
    intro eb ea h
    rw [exthost.backScan]
    exact h
  | succ fuel ih =>
    intro eb ea h
    rw [exthost.backScan]
    by_cases hc : (start : Int) ≤ eb ∧ (start : Int) ≤ ea ∧
      exthost.charAt b eb = exthost.charAt a ea
    · rw [if_pos hc]
      exact ih (eb - 1) (ea - 1) (by have := hc.1; omega)
    · rw [if_neg hc]
      exact h

theorem range_bounds (b a : List Char) (s e : Int)
    (h : exthost.getChangedLineRange b a = Option.some (s, e)) :
    1 ≤ s ∧ s ≤ e := by
  rw [exthost.getChangedLineRange] at h
  by_cases hba : b = a
  · rw [if_pos hba] at h
    exact Option.noConfusion h
  · rw [if_neg hba] at h
    have h2 := Option.some.inj h
    have hs := congrArg Prod.fst h2
    have he := congrArg Prod.snd h2
    simp only at hs he
    constructor
    · rw [← hs]
      have hp : 1 ≤ exthost.numLines
          (b.take (exthost.commonPrefixLen b a)) := by
        unfold exthost.numLines
        have := splitNL_ne_nil (b.take (exthost.commonPrefixLen b a))
        cases hsp : exthost.splitNL (b.take (exthost.commonPrefixLen b a)) with
        | nil => exact absurd hsp this
        | cons x xs => simp
      exact_mod_cast hp
    · rw [← hs, ← he]
      have hstart := commonPrefixLen_le b a
      have hback := backScan_ge b a (exthost.commonPrefixLen b a) (b.length + 1)
        ((b.length : Int) - 1) ((a.length : Int) - 1) (by omega)
      have hle : exthost.commonPrefixLen b a ≤
          (exthost.backScan b a (exthost.commonPrefixLen b a) (b.length + 1)
            ((b.length : Int) - 1) ((a.length : Int) - 1) + 1).toNat := by
        omega
      exact_mod_cast numLines_take_mono b _ _ hle

theorem getLineSlice_spec (text : List Char) (s e : Int) (hs : 1 ≤ s)
    (he : 0 ≤ e) :
    exthost.getLineSlice text s e = exthost.lineRangeSlice text s e := by
  unfold exthost.getLineSlice exthost.lineRangeSlice exthost.jsSlice
  rw [if_neg (by omega : ¬ (min ((exthost.splitNL text).length : Int) e < 0))]
  rw [if_neg (by omega : ¬ ((max 0 (s - 1) : Int) < 0))]
  congr 1
  rw [List.drop_take]
  by_cases hbig : ((exthost.splitNL text).length : Int) ≤ s - 1
  · rw [List.drop_eq_nil_of_le (by omega), List.drop_eq_nil_of_le (by omega)]
    simp
  · have hA : (min (max 0 (s - 1)) ((exthost.splitNL text).length : Int)).toNat =
        (s - 1).toNat := by omega
    rw [hA]
    by_cases hce : e ≤ ((exthost.splitNL text).length : Int)
    · rw [show (min (min ((exthost.splitNL text).length : Int) e)
          ((exthost.splitNL text).length : Int)).toNat - (s - 1).toNat =
        (e - s + 1).toNat from by omega]
    · rw [List.take_all_of_le (by rw [List.length_drop]; omega),
        List.take_all_of_le (by rw [List.length_drop]; omega)]

/-- C2: the change-range extractor returns null exactly when the two texts
are equal; when it returns a range, slicing either text by the inclusive
1-indexed line range reproduces the recorded snippet for that text; and on
the concrete scenario before `L1\nL2\nL3` / after `L1\nCHANGED\nL3` it
returns lines 2–2 with snippets `L2` and `CHANGED`. -/
theorem claim_C2 :
    (∀ before after : List Char,
      exthost.getChangedLineRange before after = Option.none ↔
        before = after) ∧
    (∀ before after : List Char, ∀ s e : Int,
      exthost.getChangedLineRange before after = Option.some (s, e) →
        exthost.getLineSlice before s e = exthost.lineRangeSlice before s e ∧
        exthost.getLineSlice after s e = exthost.lineRangeSlice after s e) ∧
    (exthost.getChangedLineRange (String.toList "L1\nL2\nL3")
        (String.toList "L1\nCHANGED\nL3") = Option.some (2, 2) ∧
      exthost.getLineSlice (String.toList "L1\nL2\nL3") 2 2 =
        String.toList "L2" ∧
      exthost.getLineSlice (String.toList "L1\nCHANGED\nL3") 2 2 =
        String.toList "CHANGED") := by
  refine ⟨?_, ?_, by decide⟩
  · intro b a
    constructor
    · intro h
      by_contra hba
      rw [exthost.getChangedLineRange, if_neg hba] at h
      exact Option.noConfusion h
    · intro h
      rw [exthost.getChangedLineRange, if_pos h]
  · intro b a s e h
    obtain ⟨h1, h2⟩ := range_bounds b a s e h
    exact ⟨getLineSlice_spec b s e h1 (by omega),
      getLineSlice_spec a s e h1 (by omega)⟩

/-- Witness for C2 at the concrete scenario inputs, discharging the
range hypothesis of the slicing conjunct there. -/
theorem claim_C2_witness :
    exthost.getLineSlice (String.toList "L1\nL2\nL3") 2 2 =
      exthost.lineRangeSlice (String.toList "L1\nL2\nL3") 2 2 ∧
    exthost.getLineSlice (String.toList "L1\nCHANGED\nL3") 2 2 =
      exthost.lineRangeSlice (String.toList "L1\nCHANGED\nL3") 2 2 :=
  claim_C2.2.1 (String.toList "L1\nL2\nL3")
    (String.toList "L1\nCHANGED\nL3") 2 2 (by decide)

theorem getLineSlice_congr (text : List Char) (s1 s2 e1 e2 : Int)
    (hs : (max 0 (s1 - 1) : Int) = max 0 (s2 - 1))
    (he : (min ((exthost.splitNL text).length : Int) e1 : Int) =
      min ((exthost.splitNL text).length : Int) e2) :
    exthost.getLineSlice text s1 e1 = exthost.getLineSlice text s2 e2 := by
  unfold exthost.getLineSlice
  rw [hs, he]

/-- C10: a returned change range always satisfies `1 ≤ startLine ≤
endLine`; and for any text and any bounds with a non-negative end, the
snippet slicer agrees with the 1-indexed inclusive line slice after
clamping the start below by 1 and the end above by the number of lines,
so snippets are well-defined on degenerate inputs too. -/
theorem claim_C10 :
    (∀ before after : List Char, ∀ s e : Int,
      exthost.getChangedLineRange before after = Option.some (s, e) →
        1 ≤ s ∧ s ≤ e) ∧
    (∀ text : List Char, ∀ s e : Int, 0 ≤ e →
      exthost.getLineSlice text s e =
        exthost.lineRangeSlice text (max 1 s)
          (min (exthost.numLines text : Int) e)) := by
  constructor
  · exact range_bounds
  · intro text s e he
    have hstep : exthost.getLineSlice text s e =
        exthost.getLineSlice text (max 1 s)
          (min (exthost.numLines text : Int) e) :=
      getLineSlice_congr text s (max 1 s) e (min (exthost.numLines text : Int) e)
        (by omega)
        (by unfold exthost.numLines; omega)
    rw [hstep]
    exact getLineSlice_spec text (max 1 s)
      (min (exthost.numLines text : Int) e) (by omega) (by
        have : (0 : Int) ≤ (exthost.numLines text : Int) := by positivity
        omega)

/-- Witness for C10: the range invariant at the concrete scenario pair,
and the clamping equation at a degenerate start line. -/
theorem claim_C10_witness :
    (1 ≤ (2 : Int) ∧ (2 : Int) ≤ 2) ∧
    exthost.getLineSlice (String.toList "L1\nL2\nL3") (-5) 2 =
      exthost.lineRangeSlice (String.toList "L1\nL2\nL3") (max 1 (-5))
        (min (exthost.numLines (String.toList "L1\nL2\nL3") : Int) 2) :=
  ⟨claim_C10.1 (String.toList "L1\nL2\nL3")
      (String.toList "L1\nCHANGED\nL3") 2 2 (by decide),
    claim_C10.2 (String.toList "L1\nL2\nL3") (-5) 2 (by decide)⟩

theorem noLoneCR_tail (c : Char) (cs : List Char)
    (h : exthost.noLoneCR (c :: cs) = true) : exthost.noLoneCR cs = true := by
  cases cs with
  | nil => rfl
  | cons d rest =>
    rw [exthost.noLoneCR] at h
    exact (Bool.and_eq_true _ _).mp h |>.2

theorem noCR_replace (s : List Char) :
    exthost.noLoneCR s = true → '\r' ∉ exthost.replaceEolAll ['\n'] s := by
  cases s with
  | nil =>
    intro _ hm
    simp [exthost.replaceEolAll] at hm
  | cons c cs =>
    cases cs with
    | nil =>
      intro h hm
      rw [exthost.noLoneCR] at h
      rw [exthost.replaceEolAll] at hm
      by_cases hc : c = '\n'
      · rw [if_pos hc] at hm
        simp at hm
      · rw [if_neg hc] at hm
        simp at hm
        rw [hm] at h
        simp at h
    | cons d rest =>
      intro h
      rw [exthost.noLoneCR] at h
      have h1 := ((Bool.and_eq_true _ _).mp h).1
      have h2 := ((Bool.and_eq_true _ _).mp h).2
      rw [exthost.replaceEolAll]
      by_cases hc : c = '\r'
      · rw [if_pos hc]
        have hd : d = '\n' := by
          rw [hc] at h1
          simp at h1
          exact h1
        rw [if_pos hd]
        intro hm
        rcases List.mem_append.mp hm with hm1 | hm2
        · simp at hm1
        · exact noCR_replace rest (noLoneCR_tail d rest h2) hm2
      · rw [if_neg hc]
        by_cases hn : c = '\n'
        · rw [if_pos hn]
          intro hm
          rcases List.mem_append.mp hm with hm1 | hm2
          · simp at hm1
          · exact noCR_replace (d :: rest) h2 hm2
        · rw [if_neg hn]
          intro hm
          rcases List.mem_cons.mp hm with hm1 | hm2
          · exact hc hm1.symm
          · exact noCR_replace (d :: rest) h2 hm2
  termination_by structural s

theorem lfOkFrom_of_noCR (s : List Char) : ∀ prev : Char, prev ≠ '\r' →
    '\r' ∉ s → exthost.lfOkFrom prev s = true := by
  induction s with
  | nil => intro prev _ _; rfl
  | cons c cs ih =>
    intro prev hprev hmem
    rw [exthost.lfOkFrom]
    have hp : (prev == '\r') = false := by
      simp [hprev]
    rw [hp]
    simp only [Bool.false_and, Bool.not_false, Bool.true_and]
    exact ih c (fun hc => hmem (hc ▸ List.mem_cons_self c cs))
      (fun hm => hmem (List.mem_cons_of_mem c hm))

theorem crlf_replace (s : List Char) : ∀ prev : Char,
    exthost.noLoneCR s = true →
      exthost.crlfOkFrom prev (exthost.replaceEolAll ['\r', '\n'] s) = true := by
  cases s with
  | nil => intro prev _; rfl
  | cons c cs =>
    cases cs with
    | nil =>
      intro prev h
      rw [exthost.noLoneCR] at h
      rw [exthost.replaceEolAll]
      by_cases hc : c = '\n'
      · rw [if_pos hc]
        simp [exthost.crlfOkFrom]
      · rw [if_neg hc]
        simp [exthost.crlfOkFrom, hc]
    | cons d rest =>
      intro prev h
      rw [exthost.noLoneCR] at h
      have h1 := ((Bool.and_eq_true _ _).mp h).1
      have h2 := ((Bool.and_eq_true _ _).mp h).2
      rw [exthost.replaceEolAll]
      by_cases hc : c = '\r'
      · rw [if_pos hc]
        have hd : d = '\n' := by
          rw [hc] at h1
          simp at h1
          exact h1
        rw [if_pos hd]
        show exthost.crlfOkFrom prev
          ('\r' :: '\n' :: exthost.replaceEolAll ['\r', '\n'] rest) = true
        rw [exthost.crlfOkFrom, exthost.crlfOkFrom]
        simp only [Bool.and_eq_true]
        refine ⟨by simp, by simp, ?_⟩
        exact crlf_replace rest '\n' (noLoneCR_tail d rest h2)
      · rw [if_neg hc]
        by_cases hn : c = '\n'
        · rw [if_pos hn]
          show exthost.crlfOkFrom prev
            ('\r' :: '\n' :: exthost.replaceEolAll ['\r', '\n'] (d :: rest)) = true
          rw [exthost.crlfOkFrom, exthost.crlfOkFrom]
          simp only [Bool.and_eq_true]
          refine ⟨by simp, by simp, ?_⟩
          exact crlf_replace (d :: rest) '\n' h2
        · rw [if_neg hn]
          rw [exthost.crlfOkFrom]
          simp only [Bool.and_eq_true]
          refine ⟨by simp [hn], ?_⟩
          exact crlf_replace (d :: rest) c h2
  termination_by structural s

theorem crlfOkFrom_of_left (xs : List Char) : ∀ (ys : List Char) (prev : Char),
    exthost.crlfOkFrom prev (xs ++ ys) = true →
      exthost.crlfOkFrom prev xs = true := by
  induction xs with
  | nil => intro ys prev _; rfl
  | cons c cs ih =>
    intro ys prev h
    rw [List.cons_append, exthost.crlfOkFrom] at h
    rw [exthost.crlfOkFrom]
    simp only [Bool.and_eq_true] at h ⊢
    exact ⟨h.1, ih ys c h.2⟩

theorem lfOkFrom_of_left (xs : List Char) : ∀ (ys : List Char) (prev : Char),
    exthost.lfOkFrom prev (xs ++ ys) = true →
      exthost.lfOkFrom prev xs = true := by
  induction xs with
  | nil => intro ys prev _; rfl
  | cons c cs ih =>
    intro ys prev h
    rw [List.cons_append, exthost.lfOkFrom] at h
    rw [exthost.lfOkFrom]
    simp only [Bool.and_eq_true] at h ⊢
    exact ⟨h.1, ih ys c h.2⟩

theorem crlfOkFrom_append_crlf (xs : List Char) : ∀ prev : Char,
    exthost.crlfOkFrom prev xs = true →
      exthost.crlfOkFrom prev (xs ++ ['\r', '\n']) = true := by
  induction xs with
  | nil =>
    intro prev _
    simp [exthost.crlfOkFrom]
  | cons c cs ih =>
    intro prev h
    rw [exthost.crlfOkFrom] at h
    rw [List.cons_append, exthost.crlfOkFrom]
    simp only [Bool.and_eq_true] at h ⊢
    exact ⟨h.1, ih c h.2⟩

theorem strip_decomp (s : List Char) :
    ∃ ys, s = exthost.stripTrailingNewline s ++ ys := by
  cases h : s.reverse with
  | nil =>
    refine ⟨[], ?_⟩
    simp only [exthost.stripTrailingNewline, h]
    simp
  | cons c rest =>
    have hs : s = rest.reverse ++ [c] := by
      rw [← List.reverse_cons, ← h, List.reverse_reverse]
    by_cases hc : c = '\n'
    · cases rest with
      | nil =>
        refine ⟨s, ?_⟩
        simp only [exthost.stripTrailingNewline, h]
        rw [if_pos hc]
        simp
      | cons d rest2 =>
        by_cases hd : d = '\r'
        · refine ⟨['\r', '\n'], ?_⟩
          simp only [exthost.stripTrailingNewline, h]
          rw [if_pos hc, if_pos hd]
          rw [hs, hd, hc]
          simp
        · refine ⟨['\n'], ?_⟩
          simp only [exthost.stripTrailingNewline, h]
          rw [if_pos hc, if_neg hd]
          rw [hs, hc]
    · refine ⟨[], ?_⟩
      simp only [exthost.stripTrailingNewline, h]
      rw [if_neg hc]
      simp

theorem endsWithNewline_append_nl (xs : List Char) (crlf : Bool) :
    exthost.endsWithNewline (xs ++ exthost.eolStr crlf) = true := by
  cases crlf <;>
    simp [exthost.endsWithNewline, exthost.eolStr, List.reverse_append]

theorem strip_of_not_ends (s : List Char)
    (h : exthost.endsWithNewline s = false) :
    exthost.stripTrailingNewline s = s := by
  rw [exthost.endsWithNewline] at h
  cases hr : s.reverse with
  | nil =>
    simp only [exthost.stripTrailingNewline, hr]
  | cons c rest =>
    rw [hr] at h
    simp only [List.head?] at h
    have hc : c ≠ '\n' := by
      intro hc
      rw [hc] at h
      simp at h
    simp only [exthost.stripTrailingNewline, hr]
    rw [if_neg hc]

theorem eolOk_replace (crlf : Bool) (s : List Char)
    (h : exthost.noLoneCR s = true) :
    exthost.eolOk crlf (exthost.replaceEolAll (exthost.eolStr crlf) s) = true := by
  cases crlf
  · show exthost.lfOk (exthost.replaceEolAll ['\n'] s) = true
    exact lfOkFrom_of_noCR _ 'a' (by decide) (noCR_replace s h)
  · show exthost.crlfOk (exthost.replaceEolAll ['\r', '\n'] s) = true
    exact crlf_replace s 'a' h

theorem eolOk_of_left (crlf : Bool) (xs ys : List Char)
    (h : exthost.eolOk crlf (xs ++ ys) = true) : exthost.eolOk crlf xs = true := by
  cases crlf
  · exact lfOkFrom_of_left xs ys 'a' h
  · exact crlfOkFrom_of_left xs ys 'a' h

theorem eolOk_append_nl (crlf : Bool) (xs : List Char)
    (hok : exthost.eolOk crlf xs = true) (hcr : crlf = false → '\r' ∉ xs) :
    exthost.eolOk crlf (xs ++ exthost.eolStr crlf) = true := by
  cases crlf
  · show exthost.lfOk (xs ++ ['\n']) = true
    refine lfOkFrom_of_noCR _ 'a' (by decide) ?_
    intro hm
    rcases List.mem_append.mp hm with hm1 | hm2
    · exact hcr rfl hm1
    · simp at hm2
  · exact crlfOkFrom_append_crlf xs 'a' hok

/-- Counterexample for C5 as stated: with an LF buffer, the input
`a\r\r\nb` normalizes to `a\r\nb`, which still contains a CRLF line
break; and for the input `a\n\n` against a non-terminated original `b`,
only one trailing newline is stripped, so the output still ends with a
newline while the original does not. -/
theorem claim_C5_counterexample :
    exthost.eolOk false
      (exthost.normalizeAndPreserveFormatting (String.toList "a\r\r\nb")
        (String.toList "x") false) = false ∧
    (exthost.endsWithNewline
        (exthost.normalizeAndPreserveFormatting (String.toList "a\n\n")
          (String.toList "b") false) = true ∧
      exthost.endsWithNewline (String.toList "b") = false) := by decide

/-- C5, corrected: when the regenerated code has no lone carriage return
(as babel-generated output does not), every line break of the normalized
result matches the buffer convention; if the original text ends with a
newline then so does the result; and if the original does not end with a
newline, the result ends with a newline exactly when the
convention-normalized text still ends with one after a single trailing
line break is stripped.  Without the lone-CR proviso the convention
property fails, and the trailing-newline property is one implication
rather than an equivalence, because only one newline is ever stripped. -/
theorem claim_C5 (newCode originalCode : List Char) (crlf : Bool)
    (h : exthost.noLoneCR newCode = true) :
    exthost.eolOk crlf
      (exthost.normalizeAndPreserveFormatting newCode originalCode crlf) = true ∧
    (exthost.endsWithNewline originalCode = true →
      exthost.endsWithNewline
        (exthost.normalizeAndPreserveFormatting newCode originalCode crlf) =
          true) ∧
    (exthost.endsWithNewline originalCode = false →
      exthost.endsWithNewline
        (exthost.normalizeAndPreserveFormatting newCode originalCode crlf) =
        exthost.endsWithNewline (exthost.stripTrailingNewline
          (exthost.replaceEolAll (exthost.eolStr crlf) newCode))) := by
  have hbase := eolOk_replace crlf newCode h
  by_cases hoT : exthost.endsWithNewline originalCode = true
  · by_cases hnT : exthost.endsWithNewline
        (exthost.replaceEolAll (exthost.eolStr crlf) newCode) = true
    · have hres : exthost.normalizeAndPreserveFormatting newCode originalCode
          crlf = exthost.replaceEolAll (exthost.eolStr crlf) newCode := by
        rw [exthost.normalizeAndPreserveFormatting]
        rw [if_neg (by rw [hoT, hnT]; decide), if_neg (by rw [hoT, hnT]; decide)]
      rw [hres]
      refine ⟨hbase, fun _ => hnT, fun habs => ?_⟩
      rw [hoT] at habs
      exact Bool.noConfusion habs
    · have hnF : exthost.endsWithNewline
          (exthost.replaceEolAll (exthost.eolStr crlf) newCode) = false := by
        revert hnT
        cases exthost.endsWithNewline
          (exthost.replaceEolAll (exthost.eolStr crlf) newCode) <;> simp
      have hres : exthost.normalizeAndPreserveFormatting newCode originalCode
          crlf = exthost.replaceEolAll (exthost.eolStr crlf) newCode ++
            exthost.eolStr crlf := by
        rw [exthost.normalizeAndPreserveFormatting]
        rw [if_pos (by rw [hoT, hnF]; decide)]
      rw [hres]
      refine ⟨?_, fun _ => endsWithNewline_append_nl _ crlf, fun habs => ?_⟩
      · refine eolOk_append_nl crlf _ hbase (fun hcf => ?_)
        rw [hcf]
        exact noCR_replace newCode h
      · rw [hoT] at habs
        exact Bool.noConfusion habs
  · have hoF : exthost.endsWithNewline originalCode = false := by
      revert hoT
      cases exthost.endsWithNewline originalCode <;> simp
    by_cases hnT : exthost.endsWithNewline
        (exthost.replaceEolAll (exthost.eolStr crlf) newCode) = true
    · have hres : exthost.normalizeAndPreserveFormatting newCode originalCode
          crlf = exthost.stripTrailingNewline
            (exthost.replaceEolAll (exthost.eolStr crlf) newCode) := by
        rw [exthost.normalizeAndPreserveFormatting]
        rw [if_neg (by rw [hoF, hnT]; decide), if_pos (by rw [hoF, hnT]; decide)]
      rw [hres]
      obtain ⟨ys, hys⟩ := strip_decomp
        (exthost.replaceEolAll (exthost.eolStr crlf) newCode)
      rw [hys] at hbase
      refine ⟨eolOk_of_left crlf _ ys hbase, fun habs => ?_, fun _ => rfl⟩
      rw [hoF] at habs
      exact Bool.noConfusion habs
    · have hnF : exthost.endsWithNewline
          (exthost.replaceEolAll (exthost.eolStr crlf) newCode) = false := by
        revert hnT
        cases exthost.endsWithNewline
          (exthost.replaceEolAll (exthost.eolStr crlf) newCode) <;> simp
      have hres : exthost.normalizeAndPreserveFormatting newCode originalCode
          crlf = exthost.replaceEolAll (exthost.eolStr crlf) newCode := by
        rw [exthost.normalizeAndPreserveFormatting]
        rw [if_neg (by rw [hoF, hnF]; decide), if_neg (by rw [hoF, hnF]; decide)]
      rw [hres]
      refine ⟨hbase, fun habs => ?_, fun _ => ?_⟩
      · rw [hoF] at habs
        exact Bool.noConfusion habs
      · rw [strip_of_not_ends _ hnF]

/-- Witness for C5 at a concrete CRLF-buffer input, discharging the
lone-carriage-return hypothesis there. -/
theorem claim_C5_witness :
    exthost.noLoneCR (String.toList "a\r\nb\n") = true ∧
    (exthost.eolOk true
      (exthost.normalizeAndPreserveFormatting (String.toList "a\r\nb\n")
        (String.toList "x\n") true) = true ∧
    (exthost.endsWithNewline (String.toList "x\n") = true →
      exthost.endsWithNewline
        (exthost.normalizeAndPreserveFormatting (String.toList "a\r\nb\n")
          (String.toList "x\n") true) = true) ∧
    (exthost.endsWithNewline (String.toList "x\n") = false →
      exthost.endsWithNewline
        (exthost.normalizeAndPreserveFormatting (String.toList "a\r\nb\n")
          (String.toList "x\n") true) =
        exthost.endsWithNewline (exthost.stripTrailingNewline
          (exthost.replaceEolAll (exthost.eolStr true)
            (String.toList "a\r\nb\n"))))) :=
  ⟨by decide,
    claim_C5 (String.toList "a\r\nb\n") (String.toList "x\n") true (by decide)⟩

end Duck
